import Mathlib

/-!
Verification of the ebuse storage core: a shallow embedding of the two
EventStore backends (`internal/store/pebble.go` and the SQLite backend) and of
the tenant registry (`tenants.go`), with theorems settling the spec claims.

Modelling conventions:
* Go `int64` values are embedded as `Int`; where the source can overflow
  (`sync/atomic.Int64.Add`, big-endian `uint64` key encoding) the wraparound is
  made explicit with `% 2^64` arithmetic (`wrap64`, `pebbleKeyOrd`, `uint64of`).
* Mutation of caller-supplied `*StoredEvent` values is embedded by returning
  the caller-visible value of the argument after the call, alongside the new
  store state and the `error` result (`Except String Unit`).
* The fallible per-event step of each backend is abstracted as a parameter:
  for the Pebble backend `valid : String → Bool` models `json.Marshal`
  succeeding on the event's `Data` (a `json.RawMessage`, whose invalid content
  is the marshal failure mode), and for the SQLite backend
  `insOk : StoredEvent → Bool` models `stmt.ExecContext` succeeding.
* The Pebble keyspace under the event key tag 0x01 is the `events` field (a
  list of key/value pairs kept in ascending key order, as in the LSM engine);
  the keyspace under the subscription tag 0x02 is the `subs` field.
* The SQLite `events` table is the `rows` list; rows are appended with the
  AUTOINCREMENT position `seq + 1`, so in every reachable state the list is
  sorted by position and `SELECT ... ORDER BY position` is a plain filter.
-/

/-- Event record, from `StoredEvent` in the store package. The Go field `Type`
is named `EventType` here because `Type` is reserved in Lean; `Data` carries
the `json.RawMessage` payload and `Timestamp` the `time.Time` instant. -/
structure StoredEvent where
  Position : Int
  EventType : String
  Data : String
  Timestamp : Int
  deriving DecidableEq, Repr

/-- Two-complement wraparound of `Go` int64 addition, used by
`sync/atomic.Int64.Add`. -/
def wrap64 (n : Int) : Int :=
  (n + 2 ^ 63) % 2 ^ 64 - 2 ^ 63

/-- `eventKey` encodes a position as a fixed-width big-endian `uint64`
(`binary.BigEndian.PutUint64(key[1:], uint64(position))`), so the
lexicographic order of keys is the numeric order of `position % 2^64`.
This function is that numeric order. -/
def pebbleKeyOrd (p : Int) : Nat :=
  (p % 2 ^ 64).toNat

/-- The `uint64(position)` conversion used when writing a subscription
checkpoint value. -/
def uint64of (v : Int) : Nat :=
  (v % 2 ^ 64).toNat

/-- The `int64(binary.BigEndian.Uint64(data))` conversion used when reading a
subscription checkpoint value back. -/
def int64ofUInt64 (n : Nat) : Int :=
  if n < 2 ^ 63 then (n : Int) else (n : Int) - 2 ^ 64

/-- Write into a key/value list kept in ascending `pebbleKeyOrd` order,
overwriting an equal key: the semantics of a `Set` in the sorted LSM
keyspace. -/
def kvSet (k : Int) (v : StoredEvent) : List (Int × StoredEvent) → List (Int × StoredEvent)
  | [] => [(k, v)]
  | (k1, v1) :: rest =>
    if pebbleKeyOrd k < pebbleKeyOrd k1 then (k, v) :: (k1, v1) :: rest
    else if pebbleKeyOrd k = pebbleKeyOrd k1 then (k, v) :: rest
    else (k1, v1) :: kvSet k v rest

/-- Overwrite-or-insert into an association list: a keyed `Set`
(Pebble subscription keyspace) or SQL `INSERT OR REPLACE`. -/
def assocSet (k : String) (v : α) : List (String × α) → List (String × α)
  | [] => [(k, v)]
  | (k1, v1) :: rest => if k = k1 then (k, v) :: rest else (k1, v1) :: assocSet k v rest

/-- Keyed lookup in an association list: a keyed `Get` or
`SELECT ... WHERE subscription_id = ?`. -/
def assocFind (k : String) : List (String × α) → Option α
  | [] => none
  | (k1, v1) :: rest => if k = k1 then some v1 else assocFind k rest

/-- State of `PebbleStore`: the committed event keyspace (tag 0x01, sorted by
key), the committed subscription keyspace (tag 0x02), and the in-process
atomic position counter. -/
structure PebbleStore where
  events : List (Int × StoredEvent)
  subs : List (String × Nat)
  position : Int
  deriving DecidableEq, Repr

/-- `PebbleStore.Save`: advance the atomic counter, write the position into
the caller's event, then marshal and write the single key. On a marshal
failure the counter stays advanced and the event stays mutated, but nothing
is written. Returns (new state, caller's event after the call, error). -/
def PebbleStore.Save (valid : String → Bool) (s : PebbleStore) (e : StoredEvent) :
    PebbleStore × StoredEvent × Except String Unit :=
  let position := wrap64 (s.position + 1)
  let e1 := { e with Position := position }
  if valid e1.Data then
    ({ s with position := position, events := kvSet position e1 s.events }, e1, Except.ok ())
  else
    ({ s with position := position }, e1, Except.error "marshal event")

/-- The loop body of `PebbleStore.SaveBatch`: one counter increment, position
assignment and marshal per event, accumulating the pending `batch.Set` writes.
Returns (final counter, pending writes, caller's slice after the loop,
error). On the first marshal failure the loop stops: the failing event has
its position assigned, later events are untouched, and no writes survive. -/
def pebbleBatchLoop (valid : String → Bool) (pos : Int) :
    List StoredEvent → Int × List (Int × StoredEvent) × List StoredEvent × Except String Unit
  | [] => (pos, [], [], Except.ok ())
  | e :: rest =>
    let position := wrap64 (pos + 1)
    let e1 := { e with Position := position }
    if valid e1.Data then
      match pebbleBatchLoop valid position rest with
      | (fpos, writes, es, r) => (fpos, (position, e1) :: writes, e1 :: es, r)
    else
      (position, [], e1 :: rest, Except.error "marshal event")

/-- `PebbleStore.SaveBatch`: empty batch is a no-op; otherwise run the loop
and, only on success, commit all pending writes as one engine batch. On
failure the counter advance from the loop survives but no write does. -/
def PebbleStore.SaveBatch (valid : String → Bool) (s : PebbleStore) (events : List StoredEvent) :
    PebbleStore × List StoredEvent × Except String Unit :=
  match events with
  | [] => (s, [], Except.ok ())
  | _ =>
    match pebbleBatchLoop valid s.position events with
    | (fpos, writes, es, Except.ok _) =>
      ({ s with position := fpos,
                events := writes.foldl (fun acc kv => kvSet kv.1 kv.2 acc) s.events },
       es, Except.ok ())
    | (fpos, _, es, Except.error m) =>
      ({ s with position := fpos }, es, Except.error m)

/-- `PebbleStore.Load`: iterate the key range
`[eventKey(from), eventKey(to+1))` in key order and decode the values. -/
def PebbleStore.Load (s : PebbleStore) (fromPos toPos : Int) : List StoredEvent :=
  (s.events.filter fun kv =>
      decide (pebbleKeyOrd fromPos ≤ pebbleKeyOrd kv.1) &&
      decide (pebbleKeyOrd kv.1 < pebbleKeyOrd (toPos + 1))).map (fun kv => kv.2)

/-- `PebbleStore.GetPosition`: an atomic load of the counter. -/
def PebbleStore.GetPosition (s : PebbleStore) : Int :=
  s.position

/-- The accumulate-and-flush loop of `PebbleStore.LoadStream`: append each
event to the current batch, hand the batch over once `len(batch) >= batchSize`,
and flush a nonempty remainder after the iterator is exhausted. The result is
the list of batches passed to the handler (the handler is assumed not to
abort the stream). -/
def chunkAcc (batchSize : Int) : List StoredEvent → List StoredEvent → List (List StoredEvent)
  | [], acc => if acc.isEmpty then [] else [acc]
  | e :: rest, acc =>
    if batchSize ≤ ((acc ++ [e]).length : Int) then
      (acc ++ [e]) :: chunkAcc batchSize rest []
    else
      chunkAcc batchSize rest (acc ++ [e])

/-- `PebbleStore.LoadStream`: a single iterator over
`[eventKey(from), 0x02)` — every event key at or after `from` — feeding the
accumulate-and-flush loop. -/
def PebbleStore.LoadStream (s : PebbleStore) (fromPos : Int) (batchSize : Int) :
    List (List StoredEvent) :=
  chunkAcc batchSize
    ((s.events.filter fun kv => decide (pebbleKeyOrd fromPos ≤ pebbleKeyOrd kv.1)).map
      (fun kv => kv.2)) []

/-- `PebbleStore.SaveSubscriptionPosition`: write the 8-byte big-endian
encoding of the position under the subscription key. -/
def PebbleStore.SaveSubscriptionPosition (s : PebbleStore) (id : String) (v : Int) : PebbleStore :=
  { s with subs := assocSet id (uint64of v) s.subs }

/-- `PebbleStore.LoadSubscriptionPosition`: decode the stored value;
`pebble.ErrNotFound` becomes `0` with no error. -/
def PebbleStore.LoadSubscriptionPosition (s : PebbleStore) (id : String) : Int :=
  match assocFind id s.subs with
  | none => 0
  | some n => int64ofUInt64 n

/-- State of `SQLiteStore`: the `events` table as a list of rows in position
order, the AUTOINCREMENT sequence for `events.position`, and the
`subscriptions` table. -/
structure SQLiteStore where
  rows : List StoredEvent
  seq : Int
  subs : List (String × Int)
  deriving DecidableEq, Repr

/-- `SQLiteStore.Save`: `INSERT INTO events (type, data, timestamp)` followed
by `LastInsertId`. A failed insert is rolled back by the engine: the state is
unchanged and the caller's event is not mutated (the position write happens
after the insert succeeds). -/
def SQLiteStore.Save (insOk : StoredEvent → Bool) (s : SQLiteStore) (e : StoredEvent) :
    SQLiteStore × StoredEvent × Except String Unit :=
  if insOk e then
    let position := s.seq + 1
    let e1 := { e with Position := position }
    ({ s with rows := s.rows ++ [e1], seq := position }, e1, Except.ok ())
  else
    (s, e, Except.error "insert event")

/-- The insert loop of `SQLiteStore.SaveBatch`, acting on the transaction's
view (rows, seq). Returns (rows, seq, caller's slice after the loop, error);
on the first failed insert the loop stops with the failing and later events
untouched. -/
def sqliteBatchLoop (insOk : StoredEvent → Bool) :
    List StoredEvent → List StoredEvent → Int →
      List StoredEvent × Int × List StoredEvent × Except String Unit
  | [], rows, seq => (rows, seq, [], Except.ok ())
  | e :: rest, rows, seq =>
    if insOk e then
      let position := seq + 1
      let e1 := { e with Position := position }
      match sqliteBatchLoop insOk rest (rows ++ [e1]) position with
      | (rows1, seq1, es, r) => (rows1, seq1, e1 :: es, r)
    else
      (rows, seq, e :: rest, Except.error "insert event")

/-- `SQLiteStore.SaveBatch`: empty batch is a no-op; otherwise all inserts run
in one transaction, and any insert failure rolls the whole transaction back
(`defer tx.Rollback()`), leaving rows and the AUTOINCREMENT sequence
untouched. -/
def SQLiteStore.SaveBatch (insOk : StoredEvent → Bool) (s : SQLiteStore)
    (events : List StoredEvent) : SQLiteStore × List StoredEvent × Except String Unit :=
  match events with
  | [] => (s, [], Except.ok ())
  | _ =>
    match sqliteBatchLoop insOk events s.rows s.seq with
    | (rows1, seq1, es, Except.ok _) => ({ s with rows := rows1, seq := seq1 }, es, Except.ok ())
    | (_, _, es, Except.error m) => (s, es, Except.error m)

/-- `SQLiteStore.Load`: `to == -1` runs
`WHERE position >= ? ORDER BY position LIMIT 10000`, anything else runs the
inclusive range query. Rows are stored in position order, so `ORDER BY
position` is the filter itself. -/
def SQLiteStore.Load (s : SQLiteStore) (fromPos toPos : Int) : List StoredEvent :=
  if toPos = -1 then
    (s.rows.filter fun e => decide (fromPos ≤ e.Position)).take 10000
  else
    s.rows.filter fun e => decide (fromPos ≤ e.Position) && decide (e.Position ≤ toPos)

/-- `SQLiteStore.GetPosition`: `SELECT MAX(position) FROM events`, with the
NULL of an empty table read back as `0`. -/
def SQLiteStore.GetPosition (s : SQLiteStore) : Int :=
  match s.rows.map (fun e => e.Position) with
  | [] => 0
  | p :: ps => ps.foldl max p

/-- The paging loop of `SQLiteStore.LoadStream`: each round queries
`position >= cursor ORDER BY position LIMIT batchSize`, stops on an empty
page or a short page, and otherwise advances the cursor past the last row of
the page. The loop always terminates within `rows.length + 1` rounds (each
full page strictly shrinks the remaining row set), so it is embedded with
that much fuel. -/
def sqliteStreamLoop (rows : List StoredEvent) (bs : Nat) :
    Nat → Int → List (List StoredEvent)
  | 0, _ => []
  | fuel + 1, pos =>
    let batch := (rows.filter fun e => decide (pos ≤ e.Position)).take bs
    if h : batch = [] then []
    else if batch.length < bs then [batch]
    else batch :: sqliteStreamLoop rows bs fuel ((batch.getLast h).Position + 1)

/-- `SQLiteStore.LoadStream`: a nonpositive batch size is replaced by the
default 1000, then the paging loop runs from `from`. The result is the list
of batches passed to the handler (the handler is assumed not to abort the
stream). -/
def SQLiteStore.LoadStream (s : SQLiteStore) (fromPos : Int) (batchSize : Int) :
    List (List StoredEvent) :=
  let bs : Nat := if batchSize ≤ 0 then 1000 else batchSize.toNat
  sqliteStreamLoop s.rows bs (s.rows.length + 1) fromPos

/-- `SQLiteStore.SaveSubscriptionPosition`:
`INSERT OR REPLACE INTO subscriptions (subscription_id, position)`. -/
def SQLiteStore.SaveSubscriptionPosition (s : SQLiteStore) (id : String) (v : Int) : SQLiteStore :=
  { s with subs := assocSet id v s.subs }

/-- `SQLiteStore.LoadSubscriptionPosition`: `sql.ErrNoRows` becomes `0` with
no error. -/
def SQLiteStore.LoadSubscriptionPosition (s : SQLiteStore) (id : String) : Int :=
  match assocFind id s.subs with
  | none => 0
  | some v => v

/-- The backend selector of `TenantsConfig.StoreBackend` after config
validation: `"sqlite"` or `"pebble"`. -/
inductive Backend where
  | sqlite
  | pebble
  deriving DecidableEq, Repr

/-- A `{name, api_key}` entry of the tenant list, from `TenantConfig`. -/
structure TenantConfig where
  Name : String
  APIKey : String
  deriving DecidableEq, Repr

/-- The already-parsed tenant configuration handed to `NewTenantManager`. -/
structure TenantsConfig where
  Tenants : List TenantConfig
  DataDir : String
  StoreBackend : Backend
  deriving DecidableEq, Repr

/-- A character accepted by the `validTenantName` regular expression
`^[a-zA-Z0-9_-]+$`. -/
def tenantNameChar (c : Char) : Bool :=
  (Char.ofNat 97 ≤ c && c ≤ Char.ofNat 122) ||
  (Char.ofNat 65 ≤ c && c ≤ Char.ofNat 90) ||
  (Char.ofNat 48 ≤ c && c ≤ Char.ofNat 57) ||
  c = Char.ofNat 95 || c = Char.ofNat 45

/-- `validTenantName.MatchString`: nonempty and every character matches the
class `[a-zA-Z0-9_-]`. -/
def validTenantName (s : String) : Bool :=
  !s.isEmpty && s.toList.all tenantNameChar

/-- The backend-specific storage path computed in `NewTenantManager`:
`filepath.Join(dataDir, name+".db")` for SQLite, `filepath.Join(dataDir,
name)` for Pebble. For a validated name (nonempty, no `/`, no dots) the join
is plain concatenation with a separator. -/
def tenantPath (backend : Backend) (dataDir name : String) : String :=
  match backend with
  | Backend.sqlite => dataDir ++ "/" ++ name ++ ".db"
  | Backend.pebble => dataDir ++ "/" ++ name

/-- The construction loop of `NewTenantManager`: per tenant, in list order,
reject an empty name, a name failing the identifier pattern, a name longer
than 100 bytes, an empty api key, and an api key already present in the map;
then open that tenant's store at its path and register it under the api key.
Returns the storage paths opened so far (in order) and either the
api-key-to-name map or the construction error. A failed construction performs
no cleanup: the already opened stores stay open, which the first component
records. -/
def buildTenants (backend : Backend) (dataDir : String) :
    List TenantConfig → List (String × String) → List String →
      List String × Except String (List (String × String))
  | [], acc, opened => (opened, Except.ok acc)
  | t :: rest, acc, opened =>
    if t.Name = "" then (opened, Except.error "tenant name cannot be empty")
    else if !validTenantName t.Name then (opened, Except.error "invalid name")
    else if 100 < t.Name.length then (opened, Except.error "name too long")
    else if t.APIKey = "" then (opened, Except.error "API key cannot be empty")
    else if (assocFind t.APIKey acc).isSome then (opened, Except.error "duplicate API key")
    else
      buildTenants backend dataDir rest (acc ++ [(t.APIKey, t.Name)])
        (opened ++ [tenantPath backend dataDir t.Name])

/-- `NewTenantManager`: run the construction loop on the parsed config,
starting from an empty api-key map and no opened stores. -/
def NewTenantManager (config : TenantsConfig) :
    List String × Except String (List (String × String)) :=
  buildTenants config.StoreBackend config.DataDir config.Tenants [] []

/-- A single tenant entry passing the four per-tenant field checks of
`NewTenantManager` (everything except duplicate-key detection). -/
def validEntry (t : TenantConfig) : Bool :=
  !(t.Name = "") && validTenantName t.Name && !(100 < t.Name.length) && !(t.APIKey = "")

/-- The contiguous block of positions `p+1, p+2, ..., p+n`. -/
def posSeq (p : Int) : Nat → List Int
  | 0 => []
  | n + 1 => (p + 1) :: posSeq (p + 1) n

/-- The common effect of both backends' batch loops on the caller's slice
when every event persists: the i-th event receives position `p + i + 1` and
keeps its other fields. -/
def assignPositions (p : Int) : List StoredEvent → List StoredEvent
  | [] => []
  | e :: rest => { e with Position := p + 1 } :: assignPositions (p + 1) rest

/-- A `Save` call with its injected per-event failure behaviour, or a
`SaveBatch` call likewise: one entry of an operation sequence against the
Pebble backend. -/
inductive PebbleOp where
  | save (valid : String → Bool) (e : StoredEvent)
  | saveBatch (valid : String → Bool) (es : List StoredEvent)

/-- Number of events a Pebble operation attempts to persist (each attempt
advances the atomic counter once). -/
def PebbleOp.eventCount : PebbleOp → Nat
  | .save _ _ => 1
  | .saveBatch _ es => es.length

/-- Run a sequence of writes against the Pebble backend, keeping only the
store state (errors are reported to the caller and the sequence goes on). -/
def pebbleRun (s : PebbleStore) : List PebbleOp → PebbleStore
  | [] => s
  | PebbleOp.save valid e :: rest => pebbleRun (PebbleStore.Save valid s e).1 rest
  | PebbleOp.saveBatch valid es :: rest => pebbleRun (PebbleStore.SaveBatch valid s es).1 rest

/-- Total number of events attempted by a Pebble operation sequence. -/
def pebbleOpsCount (ops : List PebbleOp) : Nat :=
  (ops.map PebbleOp.eventCount).sum

/-- A `Save` or `SaveBatch` call against the SQLite backend with its injected
per-event failure behaviour. -/
inductive SQLiteOp where
  | save (insOk : StoredEvent → Bool) (e : StoredEvent)
  | saveBatch (insOk : StoredEvent → Bool) (es : List StoredEvent)

/-- Run a sequence of writes against the SQLite backend, keeping only the
store state. -/
def sqliteRun (s : SQLiteStore) : List SQLiteOp → SQLiteStore
  | [] => s
  | SQLiteOp.save insOk e :: rest => sqliteRun (SQLiteStore.Save insOk s e).1 rest
  | SQLiteOp.saveBatch insOk es :: rest => sqliteRun (SQLiteStore.SaveBatch insOk s es).1 rest

/-- A freshly opened Pebble store over an empty keyspace: the counter is
initialised to 0 by `initializePosition`. -/
def pebbleInit : PebbleStore :=
  { events := [], subs := [], position := 0 }

/-- A freshly created SQLite store: empty table, AUTOINCREMENT sequence 0. -/
def sqliteInit : SQLiteStore :=
  { rows := [], seq := 0, subs := [] }

/-- The gapless-position invariant of the SQLite backend: the `events` table
holds exactly positions `1..N` in order and the AUTOINCREMENT sequence equals
`N`. -/
def sqlitePosInv (s : SQLiteStore) : Prop :=
  s.rows.map (fun e => e.Position) = posSeq 0 s.rows.length ∧ s.seq = (s.rows.length : Int)

/-- The weaker invariant the Pebble backend actually maintains: stored
positions are strictly increasing (no duplicates) and lie in `[1, counter]`,
but gaps below the counter are possible. -/
def pebbleKeyInv (s : PebbleStore) : Prop :=
  s.events.Pairwise (fun a b => pebbleKeyOrd a.1 < pebbleKeyOrd b.1) ∧
  (∀ kv ∈ s.events, 1 ≤ kv.1 ∧ kv.1 ≤ s.position) ∧ 0 ≤ s.position

/-- Concrete event used by witnesses: position `i`, fixed payload. -/
def evAt (i : Int) : StoredEvent :=
  { Position := i, EventType := "E", Data := "d", Timestamp := 0 }

/-- An event whose `Data` the injected failure predicates reject. -/
def evBad : StoredEvent :=
  { Position := 0, EventType := "X", Data := "bad", Timestamp := 0 }

/-- Failure injection used by witnesses: marshalling/inserting fails exactly
on the payload "bad". -/
def okFn : String → Bool :=
  fun d => !(d = "bad")

/-- A Pebble store holding events 1..4, as in the spec's concrete scenario. -/
def pebbleFour : PebbleStore :=
  { events := [(1, evAt 1), (2, evAt 2), (3, evAt 3), (4, evAt 4)], subs := [], position := 4 }

/-- A SQLite store holding events 1..4, as in the spec's concrete scenario. -/
def sqliteFour : SQLiteStore :=
  { rows := [evAt 1, evAt 2, evAt 3, evAt 4], seq := 4, subs := [] }

/-! ### Basic arithmetic and association-list lemmas -/

theorem wrap64_eq_self (x : Int) (h1 : -2 ^ 63 ≤ x) (h2 : x < 2 ^ 63) : wrap64 x = x := by
  unfold wrap64
  omega

theorem pebbleKeyOrd_of_bounds (q : Int) (h1 : 0 ≤ q) (h2 : q < 2 ^ 64) :
    (pebbleKeyOrd q : Int) = q := by
  unfold pebbleKeyOrd
  omega

theorem int64_roundtrip (v : Int) (h1 : -2 ^ 63 ≤ v) (h2 : v < 2 ^ 63) :
    int64ofUInt64 (uint64of v) = v := by
  unfold int64ofUInt64 uint64of
  split <;> omega

theorem assocFind_assocSet_self (k : String) (v : α) :
    ∀ l : List (String × α), assocFind k (assocSet k v l) = some v := by
  intro l
  induction l with
  | nil => simp [assocSet, assocFind]
  | cons hd tl ih =>
    by_cases h : k = hd.1
    · simp [assocSet, assocFind, h]
    · simp only [assocSet, assocFind, if_neg h]
      exact ih

theorem assocFind_append (k : String) (l1 l2 : List (String × α)) :
    assocFind k (l1 ++ l2) =
      match assocFind k l1 with
      | some v => some v
      | none => assocFind k l2 := by
  induction l1 with
  | nil => simp [assocFind]
  | cons hd tl ih =>
    by_cases h : k = hd.1
    · simp [assocFind, h]
    · simpa [assocFind, h] using ih

/-! ### Characterisation of the batch loops -/

theorem posSeq_append (m : Nat) :
    ∀ (n : Nat) (p : Int), posSeq p n ++ posSeq (p + n) m = posSeq p (n + m) := by
  intro n
  induction n with
  | zero => intro p; simp [posSeq]
  | succ n ih =>
    intro p
    have h : p + ((n : Int) + 1) = (p + 1) + n := by ring
    simp only [posSeq, Nat.cast_add, Nat.cast_one, List.cons_append, h, ih (p + 1),
      Nat.succ_add]

theorem assignPositions_map_position :
    ∀ (es : List StoredEvent) (p : Int),
      (assignPositions p es).map (fun e => e.Position) = posSeq p es.length := by
  intro es
  induction es with
  | nil => intro p; simp [assignPositions, posSeq]
  | cons e rest ih => intro p; simp [assignPositions, posSeq, ih (p + 1)]

theorem assignPositions_map_fields :
    ∀ (es : List StoredEvent) (p : Int),
      (assignPositions p es).map (fun e => (e.EventType, e.Data, e.Timestamp)) =
        es.map (fun e => (e.EventType, e.Data, e.Timestamp)) := by
  intro es
  induction es with
  | nil => intro p; simp [assignPositions]
  | cons e rest ih => intro p; simp [assignPositions, ih (p + 1)]

theorem assignPositions_length (es : List StoredEvent) :
    ∀ p : Int, (assignPositions p es).length = es.length := by
  induction es with
  | nil => intro p; simp [assignPositions]
  | cons e rest ih => intro p; simp [assignPositions, ih (p + 1)]

theorem pebbleBatchLoop_ok (valid : String → Bool) :
    ∀ (es : List StoredEvent) (pos : Int), 0 ≤ pos → pos + es.length < 2 ^ 63 →
      (∀ e ∈ es, valid e.Data = true) →
      pebbleBatchLoop valid pos es =
        (pos + es.length, (assignPositions pos es).map (fun e => (e.Position, e)),
         assignPositions pos es, Except.ok ()) := by
  intro es
  induction es with
  | nil => intro pos _ _ _; simp [pebbleBatchLoop, assignPositions]
  | cons e rest ih =>
    intro pos h0 h1 hv
    simp only [List.length_cons, Nat.cast_add, Nat.cast_one] at h1
    have hw : wrap64 (pos + 1) = pos + 1 := wrap64_eq_self _ (by omega) (by omega)
    simp only [pebbleBatchLoop, hw, assignPositions]
    rw [if_pos (hv e (List.mem_cons_self e rest)),
      ih (pos + 1) (by omega) (by omega) (fun x hx => hv x (List.mem_cons_of_mem e hx))]
    simp only [List.map_cons, List.length_cons]
    refine congrArg (fun q => (q, _, _, _)) ?_
    push_cast
    ring

theorem pebbleBatchLoop_pos_bounds (valid : String → Bool) :
    ∀ (es : List StoredEvent) (pos : Int), 0 ≤ pos → pos + es.length < 2 ^ 63 →
      pos ≤ (pebbleBatchLoop valid pos es).1 ∧
      (pebbleBatchLoop valid pos es).1 ≤ pos + es.length ∧
      ((pebbleBatchLoop valid pos es).2.2.2 ≠ Except.ok () →
        pos < (pebbleBatchLoop valid pos es).1) := by
  intro es
  induction es with
  | nil =>
    intro pos _ _
    exact ⟨le_refl _, by simp [pebbleBatchLoop], fun h => absurd rfl h⟩
  | cons e rest ih =>
    intro pos h0 h1
    simp only [List.length_cons, Nat.cast_add, Nat.cast_one] at h1
    have hw : wrap64 (pos + 1) = pos + 1 := wrap64_eq_self _ (by omega) (by omega)
    have ihr := ih (pos + 1) (by omega) (by omega)
    cases hv : valid e.Data with
    | true =>
      rcases hEq : pebbleBatchLoop valid (pos + 1) rest with ⟨fpos, writes, es1, r⟩
      rw [hEq] at ihr
      simp only [pebbleBatchLoop, hw, hv, hEq, if_true, List.length_cons]
      refine ⟨by omega, by push_cast; omega, fun _ => by omega⟩
    | false =>
      simp only [pebbleBatchLoop, hw, hv, Bool.false_eq_true, if_false, List.length_cons]
      refine ⟨by omega, by push_cast; omega, fun _ => by omega⟩

theorem pebbleBatchLoop_ok_char (valid : String → Bool) :
    ∀ (es : List StoredEvent) (pos : Int), 0 ≤ pos → pos + es.length < 2 ^ 63 →
      (pebbleBatchLoop valid pos es).2.2.2 = Except.ok () →
      pebbleBatchLoop valid pos es =
        (pos + es.length, (assignPositions pos es).map (fun e => (e.Position, e)),
         assignPositions pos es, Except.ok ()) := by
  intro es
  induction es with
  | nil => intro pos _ _ _; simp [pebbleBatchLoop, assignPositions]
  | cons e rest ih =>
    intro pos h0 h1 hok
    simp only [List.length_cons, Nat.cast_add, Nat.cast_one] at h1
    have hw : wrap64 (pos + 1) = pos + 1 := wrap64_eq_self _ (by omega) (by omega)
    cases hv : valid e.Data with
    | true =>
      have hok2 : (pebbleBatchLoop valid (pos + 1) rest).2.2.2 = Except.ok () := by
        rcases hEq : pebbleBatchLoop valid (pos + 1) rest with ⟨fpos, writes, es1, r⟩
        simp only [pebbleBatchLoop, hw, hv, hEq, if_true] at hok
        simpa using hok
      have hrec := ih (pos + 1) (by omega) (by omega) hok2
      simp only [pebbleBatchLoop, hw, hv, if_true, hrec, assignPositions, List.map_cons,
        List.length_cons]
      refine congrArg (fun q => (q, _, _, _)) ?_
      push_cast
      ring
    | false =>
      simp only [pebbleBatchLoop, hw, hv, Bool.false_eq_true, if_false] at hok
      exact Except.noConfusion hok

theorem sqliteBatchLoop_ok (insOk : StoredEvent → Bool) :
    ∀ (es rows : List StoredEvent) (seq : Int),
      (∀ e ∈ es, insOk e = true) →
      sqliteBatchLoop insOk es rows seq =
        (rows ++ assignPositions seq es, seq + es.length, assignPositions seq es,
         Except.ok ()) := by
  intro es
  induction es with
  | nil => intro rows seq _; simp [sqliteBatchLoop, assignPositions]
  | cons e rest ih =>
    intro rows seq hv
    simp only [sqliteBatchLoop, hv e (List.mem_cons_self e rest), if_true,
      ih (rows ++ [{ e with Position := seq + 1 }]) (seq + 1)
        (fun x hx => hv x (List.mem_cons_of_mem e hx)),
      assignPositions, List.length_cons]
    simp only [Prod.mk.injEq, and_true]
    exact ⟨by simp [List.append_assoc], by push_cast; ring⟩

theorem sqliteBatchLoop_ok_char (insOk : StoredEvent → Bool) :
    ∀ (es rows : List StoredEvent) (seq : Int),
      (sqliteBatchLoop insOk es rows seq).2.2.2 = Except.ok () →
      sqliteBatchLoop insOk es rows seq =
        (rows ++ assignPositions seq es, seq + es.length, assignPositions seq es,
         Except.ok ()) := by
  intro es
  induction es with
  | nil => intro rows seq _; simp [sqliteBatchLoop, assignPositions]
  | cons e rest ih =>
    intro rows seq hok
    cases hv : insOk e with
    | true =>
      have hok2 :
          (sqliteBatchLoop insOk rest (rows ++ [{ e with Position := seq + 1 }])
            (seq + 1)).2.2.2 = Except.ok () := by
        rcases hEq : sqliteBatchLoop insOk rest (rows ++ [{ e with Position := seq + 1 }])
          (seq + 1) with ⟨rows1, seq1, es1, r⟩
        simp only [sqliteBatchLoop, hv, hEq, if_true] at hok
        rw [hEq]
        simpa using hok
      have hrec := ih (rows ++ [{ e with Position := seq + 1 }]) (seq + 1) hok2
      simp only [sqliteBatchLoop, hv, if_true, hrec, assignPositions, List.length_cons]
      simp only [Prod.mk.injEq, and_true]
      exact ⟨by simp [List.append_assoc], by push_cast; ring⟩
    | false =>
      simp only [sqliteBatchLoop, hv, Bool.false_eq_true, if_false] at hok
      exact Except.noConfusion hok

theorem pebbleSaveBatch_ok_state (valid : String → Bool) (s : PebbleStore)
    (es : List StoredEvent) (h0 : 0 ≤ s.position) (h1 : s.position + es.length < 2 ^ 63)
    (hv : ∀ e ∈ es, valid e.Data = true) :
    PebbleStore.SaveBatch valid s es =
      ({ s with position := s.position + es.length,
                events := ((assignPositions s.position es).map (fun e => (e.Position, e))).foldl
                  (fun acc kv => kvSet kv.1 kv.2 acc) s.events },
       assignPositions s.position es, Except.ok ()) := by
  cases es with
  | nil => simp [PebbleStore.SaveBatch, assignPositions]
  | cons e rest =>
    simp only [PebbleStore.SaveBatch]
    rw [pebbleBatchLoop_ok valid (e :: rest) s.position h0 h1 hv]

theorem pebbleSaveBatch_error_state (valid : String → Bool) (s : PebbleStore)
    (es : List StoredEvent) (h : (PebbleStore.SaveBatch valid s es).2.2 ≠ Except.ok ()) :
    (PebbleStore.SaveBatch valid s es).1.events = s.events ∧
    (PebbleStore.SaveBatch valid s es).1.subs = s.subs ∧
    (PebbleStore.SaveBatch valid s es).1.position = (pebbleBatchLoop valid s.position es).1 := by
  cases es with
  | nil => exact absurd rfl h
  | cons e rest =>
    rcases hEq : pebbleBatchLoop valid s.position (e :: rest) with ⟨fpos, writes, es1, r⟩
    cases r with
    | ok u =>
      exfalso
      apply h
      simp [PebbleStore.SaveBatch, hEq]
    | error m =>
      simp [PebbleStore.SaveBatch, hEq]

theorem sqliteSaveBatch_ok_state (insOk : StoredEvent → Bool) (s : SQLiteStore)
    (es : List StoredEvent) (hv : ∀ e ∈ es, insOk e = true) :
    SQLiteStore.SaveBatch insOk s es =
      ({ s with rows := s.rows ++ assignPositions s.seq es, seq := s.seq + es.length },
       assignPositions s.seq es, Except.ok ()) := by
  cases es with
  | nil => simp [SQLiteStore.SaveBatch, assignPositions]
  | cons e rest =>
    simp only [SQLiteStore.SaveBatch]
    rw [sqliteBatchLoop_ok insOk (e :: rest) s.rows s.seq hv]

theorem sqliteSaveBatch_error_state (insOk : StoredEvent → Bool) (s : SQLiteStore)
    (es : List StoredEvent) (h : (SQLiteStore.SaveBatch insOk s es).2.2 ≠ Except.ok ()) :
    (SQLiteStore.SaveBatch insOk s es).1 = s := by
  cases es with
  | nil => exact absurd rfl h
  | cons e rest =>
    rcases hEq : sqliteBatchLoop insOk (e :: rest) s.rows s.seq with ⟨rows1, seq1, es1, r⟩
    cases r with
    | ok u =>
      exfalso
      apply h
      simp [SQLiteStore.SaveBatch, hEq]
    | error m =>
      simp [SQLiteStore.SaveBatch, hEq]

theorem foldl_max_le (l : List Int) :
    ∀ (a x : Int), x = a ∨ x ∈ l → x ≤ l.foldl max a := by
  induction l with
  | nil =>
    rintro a x (rfl | h)
    · exact le_refl _
    · cases h
  | cons b t ih =>
    rintro a x (rfl | h)
    · exact le_trans (le_max_left x b) (ih (max x b) (max x b) (Or.inl rfl))
    · rcases List.mem_cons.mp h with rfl | hm
      · exact le_trans (le_max_right a x) (ih (max a x) (max a x) (Or.inl rfl))
      · exact ih (max a b) x (Or.inr hm)

theorem le_getPosition (s : SQLiteStore) : ∀ e ∈ s.rows, e.Position ≤ s.GetPosition := by
  intro e he
  unfold SQLiteStore.GetPosition
  rcases hr : s.rows with _ | ⟨a, t⟩
  · rw [hr] at he; cases he
  · rw [hr] at he
    simp only [List.map_cons]
    rcases List.mem_cons.mp he with rfl | hm
    · exact foldl_max_le _ _ _ (Or.inl rfl)
    · exact foldl_max_le _ _ _ (Or.inr (List.mem_map_of_mem (fun x => x.Position) hm))

theorem pebbleLoad_empty_above (s : PebbleStore) (p : Int) (k : Nat)
    (hkeys : ∀ kv ∈ s.events, 1 ≤ kv.1 ∧ kv.1 ≤ p) (h0 : 0 ≤ p) (h1 : p + k < 2 ^ 63) :
    s.Load (p + 1) (p + k) = [] := by
  unfold PebbleStore.Load
  have h : ∀ kv ∈ s.events,
      ¬((decide (pebbleKeyOrd (p + 1) ≤ pebbleKeyOrd kv.1) &&
         decide (pebbleKeyOrd kv.1 < pebbleKeyOrd ((p + k) + 1))) = true) := by
    intro kv hm
    obtain ⟨hk1, hk2⟩ := hkeys kv hm
    have e1 : (pebbleKeyOrd (p + 1) : Int) = p + 1 :=
      pebbleKeyOrd_of_bounds _ (by omega) (by omega)
    have e2 : (pebbleKeyOrd kv.1 : Int) = kv.1 :=
      pebbleKeyOrd_of_bounds _ (by omega) (by omega)
    rw [Bool.and_eq_true, decide_eq_true_eq, decide_eq_true_eq]
    rintro ⟨hle, -⟩
    omega
  rw [List.filter_eq_nil_iff.mpr h]
  rfl

theorem sqliteLoad_empty_above (s : SQLiteStore) (p : Int) (k : Nat)
    (hmax : ∀ e ∈ s.rows, e.Position ≤ p) (h0 : 0 ≤ p) :
    s.Load (p + 1) (p + k) = [] := by
  unfold SQLiteStore.Load
  rw [if_neg (by omega : ¬(p + (k : Int) = -1))]
  apply List.filter_eq_nil_iff.mpr
  intro e hm
  rw [Bool.and_eq_true, decide_eq_true_eq, decide_eq_true_eq]
  rintro ⟨hle, -⟩
  have := hmax e hm
  omega

/-- C1 (amended): on success both backends assign the contiguous block
`p+1..p+k` to the batch in list order, and a failed batch persists nothing
(`Load(p+1, p+k)` stays empty). The SQLite backend also rolls the whole
transaction back, so `GetPosition()` still equals `p`; the Pebble backend's
atomic counter has already advanced — once per event up to and including the
failing one — so its `GetPosition()` is strictly greater than `p`, which is
what the counterexample pins down against the original claim. -/
theorem claim1_batch_contiguity_atomicity_amended :
    (∀ (valid : String → Bool) (s : PebbleStore) (es : List StoredEvent),
      0 ≤ s.position → s.position + es.length < 2 ^ 63 → (∀ e ∈ es, valid e.Data = true) →
      (PebbleStore.SaveBatch valid s es).2.1.map (fun e => e.Position) =
        posSeq s.position es.length ∧
      (PebbleStore.SaveBatch valid s es).2.2 = Except.ok ()) ∧
    (∀ (insOk : StoredEvent → Bool) (s : SQLiteStore) (es : List StoredEvent),
      (∀ e ∈ es, insOk e = true) →
      (SQLiteStore.SaveBatch insOk s es).2.1.map (fun e => e.Position) =
        posSeq s.seq es.length ∧
      (SQLiteStore.SaveBatch insOk s es).2.2 = Except.ok ()) ∧
    (∀ (insOk : StoredEvent → Bool) (s : SQLiteStore) (es : List StoredEvent) (m : String)
      (k : Nat), 0 ≤ s.GetPosition →
      (SQLiteStore.SaveBatch insOk s es).2.2 = Except.error m →
      (SQLiteStore.SaveBatch insOk s es).1.GetPosition = s.GetPosition ∧
      (SQLiteStore.SaveBatch insOk s es).1.Load (s.GetPosition + 1) (s.GetPosition + k) = []) ∧
    (∀ (valid : String → Bool) (s : PebbleStore) (es : List StoredEvent) (m : String),
      0 ≤ s.position → s.position + es.length < 2 ^ 63 →
      (∀ kv ∈ s.events, 1 ≤ kv.1 ∧ kv.1 ≤ s.position) →
      (PebbleStore.SaveBatch valid s es).2.2 = Except.error m →
      (PebbleStore.SaveBatch valid s es).1.Load (s.position + 1) (s.position + es.length) = [] ∧
      s.position < (PebbleStore.SaveBatch valid s es).1.GetPosition) := by
  refine ⟨?_, ?_, ?_, ?_⟩
  · intro valid s es h0 h1 hv
    rw [pebbleSaveBatch_ok_state valid s es h0 h1 hv]
    exact ⟨assignPositions_map_position es s.position, rfl⟩
  · intro insOk s es hv
    rw [sqliteSaveBatch_ok_state insOk s es hv]
    exact ⟨assignPositions_map_position es s.seq, rfl⟩
  · intro insOk s es m k h0 hres
    have hstate : (SQLiteStore.SaveBatch insOk s es).1 = s :=
      sqliteSaveBatch_error_state insOk s es (by rw [hres]; exact fun h => Except.noConfusion h)
    rw [hstate]
    exact ⟨rfl, sqliteLoad_empty_above s _ k (le_getPosition s) h0⟩
  · intro valid s es m h0 h1 hkeys hres
    have hne : (PebbleStore.SaveBatch valid s es).2.2 ≠ Except.ok () := by
      rw [hres]; exact fun h => Except.noConfusion h
    obtain ⟨hev, -, hpos⟩ := pebbleSaveBatch_error_state valid s es hne
    constructor
    · have hload := pebbleLoad_empty_above
        ((PebbleStore.SaveBatch valid s es).1) s.position es.length
        (by rw [hev]; exact hkeys) h0 h1
      exact hload
    · show s.position < (PebbleStore.SaveBatch valid s es).1.position
      rw [hpos]
      have hb := pebbleBatchLoop_pos_bounds valid es s.position h0 h1
      apply hb.2.2
      cases es with
      | nil => simp [PebbleStore.SaveBatch] at hres
      | cons e rest =>
        rcases hEq : pebbleBatchLoop valid s.position (e :: rest) with ⟨fpos, writes, es1, r⟩
        cases r with
        | ok u => simp [PebbleStore.SaveBatch, hEq] at hres
        | error m2 => exact fun h => Except.noConfusion h

/-- Counterexample to C1 as stated: a one-event batch whose serialization is
made to fail on the Pebble backend at `p = 0`. The batch errors and persists
nothing, but `GetPosition()` afterwards is `1`, not `p = 0`. -/
theorem claim1_counterexample_pebble_counter_advances :
    (PebbleStore.SaveBatch okFn pebbleInit [evBad]).2.2 = Except.error "marshal event" ∧
    (PebbleStore.SaveBatch okFn pebbleInit [evBad]).1.Load 1 1 = [] ∧
    pebbleInit.GetPosition = 0 ∧
    (PebbleStore.SaveBatch okFn pebbleInit [evBad]).1.GetPosition = 1 :=
  ⟨rfl, rfl, rfl, rfl⟩

/-- Witness for the amended C1 at concrete inputs: a successful 2-event batch
on each 4-event store assigns positions 5, 6; a failing batch on the SQLite
store keeps `GetPosition() = 4` and `Load(5, 6) = []`; a failing batch on the
Pebble store keeps `Load(5, 6) = []` with the counter beyond 4. -/
theorem claim1_batch_contiguity_atomicity_amended_witness :
    ((PebbleStore.SaveBatch okFn pebbleFour [evAt 0, evAt 0]).2.1.map
      (fun e => e.Position) = [5, 6]) ∧
    ((SQLiteStore.SaveBatch (fun e => okFn e.Data) sqliteFour [evAt 0, evAt 0]).2.1.map
      (fun e => e.Position) = [5, 6]) ∧
    (SQLiteStore.SaveBatch (fun e => okFn e.Data) sqliteFour [evAt 0, evBad]).1.GetPosition = 4 ∧
    (SQLiteStore.SaveBatch (fun e => okFn e.Data) sqliteFour [evAt 0, evBad]).1.Load 5 6 = [] ∧
    (PebbleStore.SaveBatch okFn pebbleFour [evAt 0, evBad]).1.Load 5 6 = [] ∧
    4 < (PebbleStore.SaveBatch okFn pebbleFour [evAt 0, evBad]).1.GetPosition := by
  have h1 := (claim1_batch_contiguity_atomicity_amended.1 okFn pebbleFour [evAt 0, evAt 0]
    (by decide) (by decide) (by decide)).1
  have h2 := (claim1_batch_contiguity_atomicity_amended.2.1 (fun e => okFn e.Data) sqliteFour
    [evAt 0, evAt 0] (by decide)).1
  have h3 := claim1_batch_contiguity_atomicity_amended.2.2.1 (fun e => okFn e.Data) sqliteFour
    [evAt 0, evBad] "insert event" 2 (by decide) rfl
  have h4 := claim1_batch_contiguity_atomicity_amended.2.2.2 okFn pebbleFour
    [evAt 0, evBad] "marshal event" (by decide) (by decide) (by decide) rfl
  refine ⟨h1, h2, ?_, ?_, h4.1, h4.2⟩
  · rw [h3.1]; rfl
  · exact h3.2

/-! ### Position-set invariants under operation sequences (claim C2) -/

theorem kvSet_append_of_gt (k : Int) (v : StoredEvent) :
    ∀ (l : List (Int × StoredEvent)), (∀ kv ∈ l, pebbleKeyOrd kv.1 < pebbleKeyOrd k) →
      kvSet k v l = l ++ [(k, v)] := by
  intro l
  induction l with
  | nil => intro _; rfl
  | cons hd tl ih =>
    intro h
    rcases hd with ⟨k1, v1⟩
    have hhd : pebbleKeyOrd k1 < pebbleKeyOrd k := h (k1, v1) (List.mem_cons_self _ _)
    unfold kvSet
    rw [if_neg (by omega), if_neg (by omega),
      ih (fun kv hm => h kv (List.mem_cons_of_mem _ hm))]
    rfl

theorem pebbleSave_inv (valid : String → Bool) (s : PebbleStore) (e : StoredEvent)
    (h : pebbleKeyInv s) (hb : s.position + 1 < 2 ^ 63) :
    pebbleKeyInv (PebbleStore.Save valid s e).1 ∧
    (PebbleStore.Save valid s e).1.position = s.position + 1 := by
  obtain ⟨hpw, hbound, hpos⟩ := h
  have hw : wrap64 (s.position + 1) = s.position + 1 := wrap64_eq_self _ (by omega) (by omega)
  have hkey : ∀ kv ∈ s.events, pebbleKeyOrd kv.1 < pebbleKeyOrd (s.position + 1) := by
    intro kv hm
    obtain ⟨h1, h2⟩ := hbound kv hm
    have e1 : (pebbleKeyOrd kv.1 : Int) = kv.1 := pebbleKeyOrd_of_bounds _ (by omega) (by omega)
    have e2 : (pebbleKeyOrd (s.position + 1) : Int) = s.position + 1 :=
      pebbleKeyOrd_of_bounds _ (by omega) (by omega)
    omega
  cases hv : valid e.Data with
  | true =>
    have hstate : (PebbleStore.Save valid s e).1 =
        { events := s.events ++ [(s.position + 1, { e with Position := s.position + 1 })],
          subs := s.subs, position := s.position + 1 } := by
      simp only [PebbleStore.Save, hw, hv, if_true]
      rw [kvSet_append_of_gt _ _ _ hkey]
    refine ⟨⟨?_, ?_, ?_⟩, ?_⟩
    · rw [hstate]
      show (s.events ++ [(s.position + 1, _)]).Pairwise _
      rw [List.pairwise_append]
      refine ⟨hpw, List.pairwise_singleton _ _, ?_⟩
      intro a ha b hb2
      rw [List.mem_singleton] at hb2
      subst hb2
      exact hkey a ha
    · rw [hstate]
      show ∀ kv ∈ s.events ++ [(s.position + 1,
        { e with Position := s.position + 1 })], 1 ≤ kv.1 ∧ kv.1 ≤ s.position + 1
      intro kv hm
      rcases List.mem_append.mp hm with hm1 | hm2
      · obtain ⟨h1, h2⟩ := hbound kv hm1
        exact ⟨h1, by omega⟩
      · rw [List.mem_singleton] at hm2
        subst hm2
        exact ⟨by omega, le_refl _⟩
    · rw [hstate]
      show (0 : Int) ≤ s.position + 1
      omega
    · rw [hstate]
  | false =>
    have hstate : (PebbleStore.Save valid s e).1 =
        { events := s.events, subs := s.subs, position := s.position + 1 } := by
      simp only [PebbleStore.Save, hw, hv, Bool.false_eq_true, if_false]
    refine ⟨⟨?_, ?_, ?_⟩, ?_⟩
    · rw [hstate]
      exact hpw
    · rw [hstate]
      show ∀ kv ∈ s.events, 1 ≤ kv.1 ∧ kv.1 ≤ s.position + 1
      intro kv hm
      obtain ⟨h1, h2⟩ := hbound kv hm
      exact ⟨h1, by omega⟩
    · rw [hstate]
      show (0 : Int) ≤ s.position + 1
      omega
    · rw [hstate]

theorem foldl_kvSet_assign :
    ∀ (es : List StoredEvent) (pos : Int) (ev : List (Int × StoredEvent)),
      0 ≤ pos → pos + es.length < 2 ^ 63 →
      ev.Pairwise (fun a b => pebbleKeyOrd a.1 < pebbleKeyOrd b.1) →
      (∀ kv ∈ ev, 1 ≤ kv.1 ∧ kv.1 ≤ pos) →
      (((assignPositions pos es).map (fun e => (e.Position, e))).foldl
          (fun acc kv => kvSet kv.1 kv.2 acc) ev).Pairwise
            (fun a b => pebbleKeyOrd a.1 < pebbleKeyOrd b.1) ∧
      (∀ kv ∈ ((assignPositions pos es).map (fun e => (e.Position, e))).foldl
          (fun acc kv => kvSet kv.1 kv.2 acc) ev, 1 ≤ kv.1 ∧ kv.1 ≤ pos + es.length) := by
  intro es
  induction es with
  | nil =>
    intro pos ev h0 h1 hpw hb
    simp only [assignPositions, List.map_nil, List.foldl_nil, List.length_nil, Nat.cast_zero,
      add_zero]
    exact ⟨hpw, hb⟩
  | cons e rest ih =>
    intro pos ev h0 h1 hpw hb
    simp only [List.length_cons, Nat.cast_add, Nat.cast_one] at h1
    have hkey : ∀ kv ∈ ev, pebbleKeyOrd kv.1 < pebbleKeyOrd (pos + 1) := by
      intro kv hm
      obtain ⟨hx1, hx2⟩ := hb kv hm
      have e1 : (pebbleKeyOrd kv.1 : Int) = kv.1 := pebbleKeyOrd_of_bounds _ (by omega) (by omega)
      have e2 : (pebbleKeyOrd (pos + 1) : Int) = pos + 1 :=
        pebbleKeyOrd_of_bounds _ (by omega) (by omega)
      omega
    simp only [assignPositions, List.map_cons, List.foldl_cons]
    rw [kvSet_append_of_gt _ _ _ hkey]
    have hpw2 : (ev ++ [(pos + 1, { e with Position := pos + 1 })]).Pairwise
        (fun (a b : Int × StoredEvent) => pebbleKeyOrd a.1 < pebbleKeyOrd b.1) := by
      rw [List.pairwise_append]
      refine ⟨hpw, List.pairwise_singleton
        (fun (a b : Int × StoredEvent) => pebbleKeyOrd a.1 < pebbleKeyOrd b.1) _, ?_⟩
      intro a ha b hb2
      rw [List.mem_singleton] at hb2
      subst hb2
      exact hkey a ha
    have hb2 : ∀ kv ∈ ev ++ [(pos + 1, { e with Position := pos + 1 })],
        1 ≤ kv.1 ∧ kv.1 ≤ pos + 1 := by
      intro kv hm
      rcases List.mem_append.mp hm with hm1 | hm2
      · obtain ⟨hx1, hx2⟩ := hb kv hm1
        exact ⟨hx1, by omega⟩
      · rw [List.mem_singleton] at hm2
        subst hm2
        exact ⟨by omega, le_refl _⟩
    obtain ⟨c1, c2⟩ := ih (pos + 1) _ (by omega) (by omega) hpw2 hb2
    refine ⟨c1, ?_⟩
    intro kv hm
    obtain ⟨hx1, hx2⟩ := c2 kv hm
    simp only [List.length_cons, Nat.cast_add, Nat.cast_one]
    exact ⟨hx1, by omega⟩

theorem pebbleSaveBatch_inv (valid : String → Bool) (s : PebbleStore) (es : List StoredEvent)
    (h : pebbleKeyInv s) (hb : s.position + es.length < 2 ^ 63) :
    pebbleKeyInv (PebbleStore.SaveBatch valid s es).1 ∧
    s.position ≤ (PebbleStore.SaveBatch valid s es).1.position ∧
    (PebbleStore.SaveBatch valid s es).1.position ≤ s.position + es.length := by
  obtain ⟨hpw, hbound, hpos⟩ := h
  cases es with
  | nil =>
    refine ⟨⟨hpw, hbound, hpos⟩, le_refl _, ?_⟩
    show s.position ≤ s.position + ((0 : Nat) : Int)
    omega
  | cons e rest =>
    rcases hEq : pebbleBatchLoop valid s.position (e :: rest) with ⟨fpos, writes, es1, r⟩
    have hbnds := pebbleBatchLoop_pos_bounds valid (e :: rest) s.position hpos hb
    rw [hEq] at hbnds
    cases r with
    | ok u =>
      cases u
      have hchar := pebbleBatchLoop_ok_char valid (e :: rest) s.position hpos hb (by rw [hEq])
      rw [hEq] at hchar
      simp only [Prod.mk.injEq, and_true] at hchar
      obtain ⟨hf, hw2, -⟩ := hchar
      subst hf hw2
      have hstate : (PebbleStore.SaveBatch valid s (e :: rest)).1 =
          { events := ((assignPositions s.position (e :: rest)).map
              (fun e => (e.Position, e))).foldl (fun acc kv => kvSet kv.1 kv.2 acc) s.events,
            subs := s.subs, position := s.position + (e :: rest).length } := by
        simp only [PebbleStore.SaveBatch, hEq]
      obtain ⟨c1, c2⟩ := foldl_kvSet_assign (e :: rest) s.position s.events hpos hb hpw hbound
      rw [hstate]
      refine ⟨⟨c1, c2, ?_⟩, ?_, le_refl _⟩
      · show (0 : Int) ≤ s.position + ((e :: rest).length : Int)
        have : (0 : Int) ≤ ((e :: rest).length : Int) := Int.natCast_nonneg _
        omega
      · show s.position ≤ s.position + ((e :: rest).length : Int)
        have : (0 : Int) ≤ ((e :: rest).length : Int) := Int.natCast_nonneg _
        omega
    | error m =>
      have hstate : (PebbleStore.SaveBatch valid s (e :: rest)).1 =
          { events := s.events, subs := s.subs, position := fpos } := by
        simp only [PebbleStore.SaveBatch, hEq]
      rw [hstate]
      refine ⟨⟨hpw, ?_, ?_⟩, ?_, ?_⟩
      · show ∀ kv ∈ s.events, 1 ≤ kv.1 ∧ kv.1 ≤ fpos
        intro kv hm
        obtain ⟨h1, h2⟩ := hbound kv hm
        exact ⟨h1, by omega⟩
      · show (0 : Int) ≤ fpos
        omega
      · show s.position ≤ fpos
        omega
      · show fpos ≤ s.position + ((e :: rest).length : Int)
        omega

theorem pebbleRun_inv :
    ∀ (ops : List PebbleOp) (s : PebbleStore), pebbleKeyInv s →
      s.position + pebbleOpsCount ops < 2 ^ 63 →
      pebbleKeyInv (pebbleRun s ops) ∧
      (pebbleRun s ops).position ≤ s.position + pebbleOpsCount ops := by
  intro ops
  induction ops with
  | nil =>
    intro s h hb
    exact ⟨h, by simp [pebbleRun, pebbleOpsCount]⟩
  | cons op rest ih =>
    intro s h hb
    cases op with
    | save valid e =>
      have hc : pebbleOpsCount (PebbleOp.save valid e :: rest) = 1 + pebbleOpsCount rest := by
        simp [pebbleOpsCount, PebbleOp.eventCount]
      rw [hc] at hb
      push_cast at hb
      have hs := pebbleSave_inv valid s e h (by omega)
      have hr := ih (PebbleStore.Save valid s e).1 hs.1 (by rw [hs.2]; push_cast; omega)
      refine ⟨hr.1, ?_⟩
      rw [show pebbleRun s (PebbleOp.save valid e :: rest) =
        pebbleRun (PebbleStore.Save valid s e).1 rest from rfl, hc]
      push_cast
      omega
    | saveBatch valid es =>
      have hc : pebbleOpsCount (PebbleOp.saveBatch valid es :: rest) =
          es.length + pebbleOpsCount rest := by
        simp [pebbleOpsCount, PebbleOp.eventCount]
      rw [hc] at hb
      push_cast at hb
      have hs := pebbleSaveBatch_inv valid s es h (by omega)
      have hr := ih (PebbleStore.SaveBatch valid s es).1 hs.1 (by push_cast; omega)
      refine ⟨hr.1, ?_⟩
      rw [show pebbleRun s (PebbleOp.saveBatch valid es :: rest) =
        pebbleRun (PebbleStore.SaveBatch valid s es).1 rest from rfl, hc]
      push_cast
      omega

theorem sqliteSave_inv (insOk : StoredEvent → Bool) (s : SQLiteStore) (e : StoredEvent)
    (h : sqlitePosInv s) : sqlitePosInv (SQLiteStore.Save insOk s e).1 := by
  obtain ⟨hmap, hseq⟩ := h
  cases hv : insOk e with
  | true =>
    have hone := posSeq_append 1 s.rows.length 0
    rw [zero_add] at hone
    have hsingle : posSeq ((s.rows.length : Nat) : Int) 1 = [(s.rows.length : Int) + 1] := rfl
    rw [hsingle] at hone
    simp only [SQLiteStore.Save, hv, if_true]
    constructor
    · simp only [List.map_append, List.map_cons, List.map_nil, hmap, hseq,
        List.length_append, List.length_cons, List.length_nil]
      exact hone
    · simp only [List.length_append, List.length_cons, List.length_nil, hseq]
      push_cast
      ring
  | false =>
    simp only [SQLiteStore.Save, hv, Bool.false_eq_true, if_false]
    exact ⟨hmap, hseq⟩

theorem sqliteSaveBatch_inv (insOk : StoredEvent → Bool) (s : SQLiteStore)
    (es : List StoredEvent) (h : sqlitePosInv s) :
    sqlitePosInv (SQLiteStore.SaveBatch insOk s es).1 := by
  obtain ⟨hmap, hseq⟩ := h
  cases es with
  | nil => exact ⟨hmap, hseq⟩
  | cons e rest =>
    rcases hEq : sqliteBatchLoop insOk (e :: rest) s.rows s.seq with ⟨rows1, seq1, es1, r⟩
    cases r with
    | ok u =>
      cases u
      have hchar := sqliteBatchLoop_ok_char insOk (e :: rest) s.rows s.seq (by rw [hEq])
      rw [hEq] at hchar
      simp only [Prod.mk.injEq, and_true] at hchar
      obtain ⟨hr1, hs1, -⟩ := hchar
      simp only [SQLiteStore.SaveBatch, hEq]
      subst hr1 hs1
      constructor
      · simp only [List.map_append, hmap, assignPositions_map_position, hseq,
          List.length_append, assignPositions_length]
        have := posSeq_append (e :: rest).length s.rows.length 0
        rw [zero_add] at this
        exact this
      · simp only [List.length_append, assignPositions_length, hseq]
        push_cast
        ring
    | error m =>
      simp only [SQLiteStore.SaveBatch, hEq]
      exact ⟨hmap, hseq⟩

theorem sqliteRun_inv :
    ∀ (ops : List SQLiteOp) (s : SQLiteStore), sqlitePosInv s → sqlitePosInv (sqliteRun s ops) := by
  intro ops
  induction ops with
  | nil => intro s h; exact h
  | cons op rest ih =>
    intro s h
    cases op with
    | save insOk e => exact ih _ (sqliteSave_inv insOk s e h)
    | saveBatch insOk es => exact ih _ (sqliteSaveBatch_inv insOk s es h)

/-- C2 (amended): for the SQLite backend the claim holds: after any sequence
of `Save`/`SaveBatch` calls, failing or not, the persisted positions are
exactly `1..N` in order (counter advance and persistence roll back together).
The Pebble backend only guarantees the weaker `pebbleKeyInv`: persisted
positions are strictly increasing, distinct, and lie in `[1, counter]` — a
failed save consumes a position that is never reused, leaving a permanent
gap, which the counterexample exhibits. -/
theorem claim2_gapless_positions_amended :
    (∀ ops : List SQLiteOp, sqlitePosInv (sqliteRun sqliteInit ops)) ∧
    (∀ ops : List PebbleOp, (pebbleOpsCount ops : Int) < 2 ^ 63 →
      pebbleKeyInv (pebbleRun pebbleInit ops)) := by
  constructor
  · intro ops
    exact sqliteRun_inv ops sqliteInit ⟨rfl, rfl⟩
  · intro ops hc
    refine (pebbleRun_inv ops pebbleInit ⟨List.Pairwise.nil, ?_, le_refl 0⟩ ?_).1
    · intro kv hm
      cases hm
    · simpa [pebbleInit] using hc

/-- Witness for C2 (amended) at a concrete one-save sequence on each
backend. -/
theorem claim2_gapless_positions_amended_witness :
    sqlitePosInv (sqliteRun sqliteInit [SQLiteOp.save (fun e => okFn e.Data) (evAt 0)]) ∧
    pebbleKeyInv (pebbleRun pebbleInit [PebbleOp.save okFn (evAt 0)]) :=
  ⟨claim2_gapless_positions_amended.1 [SQLiteOp.save (fun e => okFn e.Data) (evAt 0)],
   claim2_gapless_positions_amended.2 [PebbleOp.save okFn (evAt 0)] (by decide)⟩

/-- Counterexample to C2 as stated: on the Pebble backend a failed `Save`
followed by a successful one persists exactly one event, at position 2 — the
persisted position set is {2}, not {1} = {1..N}. -/
theorem claim2_counterexample_pebble_gap :
    ((pebbleRun pebbleInit [PebbleOp.save okFn evBad, PebbleOp.save okFn (evAt 0)]).events.map
      (fun kv => kv.2.Position) = [2]) ∧
    (pebbleRun pebbleInit [PebbleOp.save okFn evBad,
      PebbleOp.save okFn (evAt 0)]).events.length = 1 ∧
    ¬((pebbleRun pebbleInit [PebbleOp.save okFn evBad,
      PebbleOp.save okFn (evAt 0)]).events.map (fun kv => kv.2.Position) = posSeq 0 1) := by
  exact ⟨rfl, rfl, by decide⟩

/-! ### Stream lemmas (claims C6, C7, C9) -/

theorem chunkAcc_flatten (bs : Int) :
    ∀ (l acc : List StoredEvent), (chunkAcc bs l acc).flatten = acc ++ l := by
  intro l
  induction l with
  | nil =>
    intro acc
    by_cases h : acc.isEmpty
    · rw [List.isEmpty_iff.mp h]
      simp [chunkAcc]
    · simp [chunkAcc, h]
  | cons e rest ih =>
    intro acc
    unfold chunkAcc
    split
    · simp [ih]
    · simp [ih]

theorem chunkAcc_batch_le (bs : Int) (hbs : 1 ≤ bs) :
    ∀ (l acc : List StoredEvent), ((acc.length : Int) < bs) →
      ∀ b ∈ chunkAcc bs l acc, (b.length : Int) ≤ bs := by
  intro l
  induction l with
  | nil =>
    intro acc hacc b hm
    by_cases h : acc.isEmpty
    · simp [chunkAcc, h] at hm
    · simp only [chunkAcc, h, Bool.false_eq_true, if_false, List.mem_singleton] at hm
      subst hm
      omega
  | cons e rest ih =>
    intro acc hacc b hm
    unfold chunkAcc at hm
    split at hm
    · rcases List.mem_cons.mp hm with rfl | hm2
      · simp only [List.length_append, List.length_cons, List.length_nil]
        push_cast
        omega
      · exact ih [] (by simpa using hbs) b hm2
    · refine ih (acc ++ [e]) ?_ b hm
      rename_i hflush
      simp only [List.length_append, List.length_cons, List.length_nil] at hflush ⊢
      push_cast at hflush ⊢
      omega

theorem chunkAcc_exact (bs : Int) :
    ∀ (l acc : List StoredEvent), l ≠ [] → ((acc ++ l).length : Int) = bs →
      chunkAcc bs l acc = [acc ++ l] := by
  intro l
  induction l with
  | nil => intro acc h _; exact absurd rfl h
  | cons e rest ih =>
    intro acc _ hlen
    cases rest with
    | nil =>
      unfold chunkAcc
      rw [if_pos (by simp at hlen ⊢; omega)]
      simp [chunkAcc]
    | cons e2 rest2 =>
      unfold chunkAcc
      rw [if_neg (by simp at hlen ⊢; omega)]
      rw [ih (acc ++ [e]) (by simp) (by simp at hlen ⊢; omega)]
      simp

theorem filter_lt_key_drop :
    ∀ (l : List StoredEvent), l.Pairwise (fun a b => a.Position < b.Position) →
      ∀ (n : Nat) (h : n < l.length),
        l.filter (fun e => decide ((l.get ⟨n, h⟩).Position < e.Position)) = l.drop (n + 1) := by
  intro l
  induction l with
  | nil => intro _ n h; exact absurd h (Nat.not_lt_zero n)
  | cons a t ih =>
    intro hpw n h
    obtain ⟨hhead, htail⟩ := List.pairwise_cons.mp hpw
    cases n with
    | zero =>
      show (a :: t).filter (fun e => decide (a.Position < e.Position)) = t
      rw [List.filter_cons]
      have ha : decide (a.Position < a.Position) = false := by simp
      rw [ha]
      simp only [Bool.false_eq_true, if_false]
      apply List.filter_eq_self.mpr
      intro b hb
      simp only [decide_eq_true_eq]
      exact hhead b hb
    | succ m =>
      have hm : m < t.length := Nat.lt_of_succ_lt_succ h
      show (a :: t).filter (fun e => decide ((t.get ⟨m, hm⟩).Position < e.Position)) = t.drop (m + 1)
      rw [List.filter_cons]
      have hat : a.Position < (t.get ⟨m, hm⟩).Position := hhead _ (t.get_mem ..)
      have ha : decide ((t.get ⟨m, hm⟩).Position < a.Position) = false := by
        simp only [decide_eq_false_iff_not]
        omega
      rw [ha]
      simp only [Bool.false_eq_true, if_false]
      exact ih htail m hm

theorem sqlite_page_cursor (rows : List StoredEvent)
    (hpw : rows.Pairwise (fun a b => a.Position < b.Position)) (pos : Int) (bs : Nat)
    (hbs : 1 ≤ bs)
    (hlen : bs ≤ (rows.filter fun e => decide (pos ≤ e.Position)).length)
    (hne : (rows.filter fun e => decide (pos ≤ e.Position)).take bs ≠ []) :
    (rows.filter fun e =>
        decide (((((rows.filter fun e => decide (pos ≤ e.Position)).take bs).getLast
          hne).Position + 1) ≤ e.Position)) =
      (rows.filter fun e => decide (pos ≤ e.Position)).drop bs := by
  have hFpw : (rows.filter fun e => decide (pos ≤ e.Position)).Pairwise
      (fun a b => a.Position < b.Position) := hpw.sublist (List.filter_sublist rows)
  have htake_len : ((rows.filter fun e => decide (pos ≤ e.Position)).take bs).length = bs := by
    rw [List.length_take]
    omega
  have hb1 : bs - 1 < (rows.filter fun e => decide (pos ≤ e.Position)).length := by omega
  have hlast : ((rows.filter fun e => decide (pos ≤ e.Position)).take bs).getLast hne =
      (rows.filter fun e => decide (pos ≤ e.Position)).get ⟨bs - 1, hb1⟩ := by
    rw [List.getLast_eq_getElem, List.get_eq_getElem]
    simp only [htake_len]
    exact List.getElem_take _
  rw [hlast]
  have hmem : (rows.filter fun e => decide (pos ≤ e.Position)).get ⟨bs - 1, hb1⟩ ∈
      rows.filter fun e => decide (pos ≤ e.Position) := List.get_mem ..
  have hposle : pos ≤ ((rows.filter fun e => decide (pos ≤ e.Position)).get ⟨bs - 1, hb1⟩).Position := by
    have := List.of_mem_filter hmem
    exact decide_eq_true_eq.mp this
  have hstep1 : (rows.filter fun e =>
      decide ((((rows.filter fun e => decide (pos ≤ e.Position)).get ⟨bs - 1, hb1⟩).Position + 1)
        ≤ e.Position)) =
      ((rows.filter fun e => decide (pos ≤ e.Position)).filter fun e =>
        decide ((((rows.filter fun e => decide (pos ≤ e.Position)).get ⟨bs - 1, hb1⟩).Position + 1)
          ≤ e.Position)) := by
    rw [List.filter_filter]
    apply List.filter_congr
    intro e _
    cases hq : decide ((((rows.filter fun e => decide (pos ≤ e.Position)).get
        ⟨bs - 1, hb1⟩).Position + 1) ≤ e.Position) with
    | true =>
      have hqq := decide_eq_true_eq.mp hq
      simp only [Bool.true_and]
      symm
      rw [decide_eq_true_eq]
      omega
    | false => simp
  rw [hstep1]
  have hstep2 : ((rows.filter fun e => decide (pos ≤ e.Position)).filter fun e =>
      decide ((((rows.filter fun e => decide (pos ≤ e.Position)).get ⟨bs - 1, hb1⟩).Position + 1)
        ≤ e.Position)) =
      ((rows.filter fun e => decide (pos ≤ e.Position)).filter fun e =>
        decide ((((rows.filter fun e => decide (pos ≤ e.Position)).get
          ⟨bs - 1, hb1⟩).Position) < e.Position)) := by
    apply List.filter_congr
    intro e _
    rcases Int.lt_or_le (((rows.filter fun e => decide (pos ≤ e.Position)).get
      ⟨bs - 1, hb1⟩).Position) e.Position with hlt | hle
    · rw [decide_eq_true (by omega), decide_eq_true hlt]
    · rw [decide_eq_false (by omega), decide_eq_false (by omega)]
  rw [hstep2, filter_lt_key_drop _ hFpw (bs - 1) hb1, Nat.sub_add_cancel hbs]

theorem sqliteStreamLoop_flatten (rows : List StoredEvent)
    (hpw : rows.Pairwise (fun a b => a.Position < b.Position)) (bs : Nat) (hbs : 1 ≤ bs) :
    ∀ (fuel : Nat) (pos : Int),
      (rows.filter fun e => decide (pos ≤ e.Position)).length < fuel →
      (sqliteStreamLoop rows bs fuel pos).flatten =
        rows.filter fun e => decide (pos ≤ e.Position) := by
  intro fuel
  induction fuel with
  | zero => intro pos h; exact absurd h (Nat.not_lt_zero _)
  | succ fuel ih =>
    intro pos hfuel
    simp only [sqliteStreamLoop]
    by_cases hemp : (rows.filter fun e => decide (pos ≤ e.Position)).take bs = []
    · rw [dif_pos hemp]
      rcases List.take_eq_nil_iff.mp hemp with h1 | h2
      · omega
      · rw [h2]
        rfl
    · rw [dif_neg hemp]
      by_cases hshort : ((rows.filter fun e => decide (pos ≤ e.Position)).take bs).length < bs
      · rw [if_pos hshort]
        have hFlen : (rows.filter fun e => decide (pos ≤ e.Position)).length < bs := by
          rw [List.length_take] at hshort
          omega
        rw [List.take_of_length_le (le_of_lt hFlen)]
        simp
      · rw [if_neg hshort]
        have hlen : bs ≤ (rows.filter fun e => decide (pos ≤ e.Position)).length := by
          rw [List.length_take] at hshort
          omega
        have hcur := sqlite_page_cursor rows hpw pos bs hbs hlen hemp
        rw [List.flatten_cons, ih _ (by rw [hcur, List.length_drop]; omega), hcur]
        exact List.take_append_drop bs _

theorem sqliteStreamLoop_batch_le (rows : List StoredEvent) (bs : Nat) :
    ∀ (fuel : Nat) (pos : Int) (b : List StoredEvent),
      b ∈ sqliteStreamLoop rows bs fuel pos → b.length ≤ bs := by
  intro fuel
  induction fuel with
  | zero => intro pos b hm; cases hm
  | succ fuel ih =>
    intro pos b hm
    simp only [sqliteStreamLoop] at hm
    by_cases hemp : (rows.filter fun e => decide (pos ≤ e.Position)).take bs = []
    · rw [dif_pos hemp] at hm
      cases hm
    · rw [dif_neg hemp] at hm
      by_cases hshort : ((rows.filter fun e => decide (pos ≤ e.Position)).take bs).length < bs
      · rw [if_pos hshort] at hm
        rw [List.mem_singleton] at hm
        subst hm
        rw [List.length_take]
        omega
      · rw [if_neg hshort] at hm
        rcases List.mem_cons.mp hm with rfl | hm2
        · rw [List.length_take]
          omega
        · exact ih _ b hm2

theorem assignPositions_pos_gt :
    ∀ (es : List StoredEvent) (p : Int), ∀ e ∈ assignPositions p es, p < e.Position := by
  intro es
  induction es with
  | nil => intro p e hm; cases hm
  | cons a rest ih =>
    intro p e hm
    rcases List.mem_cons.mp hm with rfl | hm2
    · show p < p + 1
      omega
    · have := ih (p + 1) e hm2
      omega

theorem assignPositions_pairwise :
    ∀ (es : List StoredEvent) (p : Int),
      (assignPositions p es).Pairwise (fun a b => a.Position < b.Position) := by
  intro es
  induction es with
  | nil => intro p; exact List.Pairwise.nil
  | cons a rest ih =>
    intro p
    refine List.Pairwise.cons ?_ (ih (p + 1))
    intro b hb
    have := assignPositions_pos_gt rest (p + 1) b hb
    show p + 1 < b.Position
    omega

theorem assignPositions_pos_le :
    ∀ (es : List StoredEvent) (p : Int), ∀ e ∈ assignPositions p es,
      e.Position ≤ p + es.length := by
  intro es
  induction es with
  | nil => intro p e hm; cases hm
  | cons a rest ih =>
    intro p e hm
    simp only [List.length_cons, Nat.cast_add, Nat.cast_one]
    rcases List.mem_cons.mp hm with rfl | hm2
    · show p + 1 ≤ p + (rest.length + 1)
      have : (0 : Int) ≤ rest.length := Int.natCast_nonneg _
      omega
    · have := ih (p + 1) e hm2
      omega

theorem assignPositions_getLast_position :
    ∀ (es : List StoredEvent) (p : Int) (h : assignPositions p es ≠ []),
      ((assignPositions p es).getLast h).Position = p + es.length := by
  intro es
  induction es with
  | nil => intro p h; exact absurd rfl h
  | cons a rest ih =>
    intro p h
    cases rest with
    | nil =>
      show ([{ a with Position := p + 1 }].getLast (by simp)).Position = p + ↑[a].length
      rw [List.getLast_singleton]
      simp
    | cons b rest2 =>
      show ((({ a with Position := p + 1 }) ::
        assignPositions (p + 1) (b :: rest2)).getLast h).Position = _
      rw [List.getLast_cons (by simp [assignPositions])]
      rw [ih (p + 1) (by simp [assignPositions])]
      simp only [List.length_cons, Nat.cast_add, Nat.cast_one]
      ring

theorem sqliteStreamLoop_nil_of_filter_nil (rows : List StoredEvent) (bs fuel : Nat) (pos : Int)
    (h : rows.filter (fun e => decide (pos ≤ e.Position)) = []) :
    sqliteStreamLoop rows bs fuel pos = [] := by
  cases fuel with
  | zero => rfl
  | succ f =>
    simp only [sqliteStreamLoop]
    rw [h]
    simp

/-- The one-page run of the SQLite paging loop: on a store holding exactly
`n ≥ 1` events at positions `1..n`, `LoadStream(1, n)` hands the handler one
single batch containing the entire table. -/
theorem sqliteStream_one_page (n : Nat) (hn : 1 ≤ n) :
    SQLiteStore.LoadStream ⟨assignPositions 0 (List.replicate n (evAt 0)), (n : Int), []⟩ 1
      ((n : Nat) : Int) = [assignPositions 0 (List.replicate n (evAt 0))] := by
  have hlenrows : (assignPositions 0 (List.replicate n (evAt 0))).length = n := by
    rw [assignPositions_length, List.length_replicate]
  have hfilter : (assignPositions 0 (List.replicate n (evAt 0))).filter
      (fun e => decide ((1 : Int) ≤ e.Position)) =
        assignPositions 0 (List.replicate n (evAt 0)) := by
    apply List.filter_eq_self.mpr
    intro e he
    rw [decide_eq_true_eq]
    have := assignPositions_pos_gt _ 0 e he
    omega
  simp only [SQLiteStore.LoadStream]
  rw [if_neg (by omega), Int.toNat_natCast]
  rw [hlenrows]
  show sqliteStreamLoop _ n (n + 1) 1 = _
  cases n with
  | zero => omega
  | succ m =>
    simp only [sqliteStreamLoop]
    rw [hfilter]
    have htake : (assignPositions 0 (List.replicate (m + 1) (evAt 0))).take (m + 1) =
        assignPositions 0 (List.replicate (m + 1) (evAt 0)) :=
      List.take_of_length_le (by rw [hlenrows])
    rw [htake, dif_neg (by intro h; rw [h] at hlenrows; simp at hlenrows)]
    rw [if_neg (by rw [hlenrows]; omega)]
    rw [assignPositions_getLast_position]
    have hfil2 : (assignPositions 0 (List.replicate (m + 1) (evAt 0))).filter
        (fun e => decide (0 + ((List.replicate (m + 1) (evAt 0)).length : Int) + 1
          ≤ e.Position)) = [] := by
      apply List.filter_eq_nil_iff.mpr
      intro e he
      simp only [decide_eq_true_eq]
      have := assignPositions_pos_le (List.replicate (m + 1) (evAt 0)) 0 e he
      omega
    rw [hfil2]
    simp

/-- C6: for both backends, concatenating the batches `LoadStream(1, k,
handler)` passes to the handler (any `k ≥ 1`) equals `Load(1, GetPosition())`.
The store-state hypotheses are the backends' reachable-state invariants:
SQLite rows are strictly position-sorted with positions `≥ 1`; Pebble keys
are in `[1, counter]` with the counter an in-range int64. -/
theorem claim6_stream_equivalence :
    (∀ (s : SQLiteStore) (batchSize : Int), 1 ≤ batchSize →
      s.rows.Pairwise (fun a b => a.Position < b.Position) →
      (∀ e ∈ s.rows, 1 ≤ e.Position) →
      (s.LoadStream 1 batchSize).flatten = s.Load 1 s.GetPosition) ∧
    (∀ (s : PebbleStore) (batchSize : Int), 1 ≤ batchSize →
      (∀ kv ∈ s.events, 1 ≤ kv.1 ∧ kv.1 ≤ s.position) →
      0 ≤ s.position → s.position + 1 < 2 ^ 63 →
      (s.LoadStream 1 batchSize).flatten = s.Load 1 s.GetPosition) := by
  constructor
  · intro s batchSize hbs hpw hpos1
    have hM : 0 ≤ s.GetPosition := by
      cases hr : s.rows with
      | nil => simp [SQLiteStore.GetPosition, hr]
      | cons a t =>
        have h1 := le_getPosition s a (by rw [hr]; exact List.mem_cons_self a t)
        have h2 := hpos1 a (by rw [hr]; exact List.mem_cons_self a t)
        omega
    simp only [SQLiteStore.LoadStream]
    rw [if_neg (by omega)]
    rw [sqliteStreamLoop_flatten s.rows hpw batchSize.toNat (by omega) (s.rows.length + 1) 1
      (by have := List.length_filter_le (fun e => decide ((1 : Int) ≤ e.Position)) s.rows
          omega)]
    unfold SQLiteStore.Load
    rw [if_neg (by omega)]
    apply List.filter_congr
    intro e he
    have hle := le_getPosition s e he
    rw [decide_eq_true hle, Bool.and_true]
  · intro s batchSize hbs hkeys h0 h1
    simp only [PebbleStore.LoadStream, PebbleStore.GetPosition]
    rw [chunkAcc_flatten]
    rw [List.nil_append]
    unfold PebbleStore.Load
    refine congrArg _ ?_
    apply List.filter_congr
    intro kv hm
    obtain ⟨hk1, hk2⟩ := hkeys kv hm
    have e1 : (pebbleKeyOrd kv.1 : Int) = kv.1 := pebbleKeyOrd_of_bounds _ (by omega) (by omega)
    have e2 : (pebbleKeyOrd (s.position + 1) : Int) = s.position + 1 :=
      pebbleKeyOrd_of_bounds _ (by omega) (by omega)
    have hlt : pebbleKeyOrd kv.1 < pebbleKeyOrd (s.position + 1) := by omega
    rw [decide_eq_true hlt, Bool.and_true]

/-- Witness for C6 on the concrete 4-event stores with `k = 3`. -/
theorem claim6_stream_equivalence_witness :
    (sqliteFour.LoadStream 1 3).flatten = sqliteFour.Load 1 sqliteFour.GetPosition ∧
    (pebbleFour.LoadStream 1 3).flatten = pebbleFour.Load 1 pebbleFour.GetPosition :=
  ⟨claim6_stream_equivalence.1 sqliteFour 3 (by decide) (by decide) (by decide),
   claim6_stream_equivalence.2 pebbleFour 3 (by decide) (by decide) (by decide) (by decide)⟩

/-- C7: `LoadStream(from, batch_size, handler)` hands the handler batches of
size at most `batch_size` on both backends, and on a store holding events
1..4, `LoadStream(1, 2, handler)` invokes the handler exactly twice, with
`[1,2]` then `[3,4]` — never a third time. -/
theorem claim7_loadstream_batching :
    (∀ (s : SQLiteStore) (fromPos batchSize : Int), 1 ≤ batchSize →
      ∀ b ∈ s.LoadStream fromPos batchSize, (b.length : Int) ≤ batchSize) ∧
    (∀ (s : PebbleStore) (fromPos batchSize : Int), 1 ≤ batchSize →
      ∀ b ∈ s.LoadStream fromPos batchSize, (b.length : Int) ≤ batchSize) ∧
    sqliteFour.LoadStream 1 2 = [[evAt 1, evAt 2], [evAt 3, evAt 4]] ∧
    pebbleFour.LoadStream 1 2 = [[evAt 1, evAt 2], [evAt 3, evAt 4]] := by
  refine ⟨?_, ?_, by decide, by decide⟩
  · intro s fromPos batchSize hbs b hm
    simp only [SQLiteStore.LoadStream] at hm
    rw [if_neg (by omega)] at hm
    have := sqliteStreamLoop_batch_le s.rows batchSize.toNat _ fromPos b hm
    omega
  · intro s fromPos batchSize hbs b hm
    simp only [PebbleStore.LoadStream] at hm
    exact chunkAcc_batch_le batchSize hbs _ []
      (by simp only [List.length_nil, Nat.cast_zero]; omega) b hm

/-- Witness for C7's bounded-batch conjuncts at the concrete stores. -/
theorem claim7_loadstream_batching_witness :
    (([evAt 1, evAt 2] : List StoredEvent).length : Int) ≤ 2 ∧
    (([evAt 3, evAt 4] : List StoredEvent).length : Int) ≤ 2 :=
  ⟨claim7_loadstream_batching.1 sqliteFour 1 2 (by norm_num) [evAt 1, evAt 2] (by decide),
   claim7_loadstream_batching.2.1 pebbleFour 1 2 (by norm_num) [evAt 3, evAt 4] (by decide)⟩

/-- C9 (amended): neither backend imposes an upper clamp on `batch_size`.
Batches are bounded by the `batch_size` argument itself (and a nonpositive
`batch_size` is replaced by the default 1000 in the SQLite backend), but for
every candidate clamp `C` there is a store and a call whose single in-memory
batch exceeds `C`. The only upper clamp (5000) lives in the excluded HTTP
layer. -/
theorem claim9_no_upper_clamp_amended :
    (∀ (s : SQLiteStore) (fromPos batchSize : Int), 1 ≤ batchSize →
      ∀ b ∈ s.LoadStream fromPos batchSize, (b.length : Int) ≤ batchSize) ∧
    (∀ (s : PebbleStore) (fromPos batchSize : Int), 1 ≤ batchSize →
      ∀ b ∈ s.LoadStream fromPos batchSize, (b.length : Int) ≤ batchSize) ∧
    (∀ (s : SQLiteStore) (fromPos batchSize : Int), batchSize ≤ 0 →
      s.LoadStream fromPos batchSize =
        sqliteStreamLoop s.rows 1000 (s.rows.length + 1) fromPos) ∧
    (∀ C : Nat, ∃ (s : SQLiteStore) (batchSize : Int) (b : List StoredEvent),
      b ∈ s.LoadStream 1 batchSize ∧ C < b.length) := by
  refine ⟨?_, ?_, ?_, ?_⟩
  · intro s fromPos batchSize hbs b hm
    simp only [SQLiteStore.LoadStream] at hm
    rw [if_neg (by omega)] at hm
    have := sqliteStreamLoop_batch_le s.rows batchSize.toNat _ fromPos b hm
    omega
  · intro s fromPos batchSize hbs b hm
    simp only [PebbleStore.LoadStream] at hm
    exact chunkAcc_batch_le batchSize hbs _ []
      (by simp only [List.length_nil, Nat.cast_zero]; omega) b hm
  · intro s fromPos batchSize hbs
    simp only [SQLiteStore.LoadStream]
    rw [if_pos hbs]
  · intro C
    refine ⟨⟨assignPositions 0 (List.replicate (C + 1) (evAt 0)), ((C + 1 : Nat) : Int), []⟩,
      ((C + 1 : Nat) : Int), assignPositions 0 (List.replicate (C + 1) (evAt 0)), ?_, ?_⟩
    · rw [sqliteStream_one_page (C + 1) (by omega)]
      exact List.mem_singleton.mpr rfl
    · rw [assignPositions_length, List.length_replicate]
      omega

/-- Witness for the amended C9 at concrete inputs. -/
theorem claim9_no_upper_clamp_amended_witness :
    (([evAt 1, evAt 2, evAt 3] : List StoredEvent).length : Int) ≤ 3 ∧
    (([evAt 1, evAt 2, evAt 3] : List StoredEvent).length : Int) ≤ 3 ∧
    sqliteFour.LoadStream 1 0 = sqliteStreamLoop sqliteFour.rows 1000 (sqliteFour.rows.length + 1) 1 ∧
    ∃ (s : SQLiteStore) (batchSize : Int) (b : List StoredEvent),
      b ∈ s.LoadStream 1 batchSize ∧ 3 < b.length :=
  ⟨claim9_no_upper_clamp_amended.1 sqliteFour 1 3 (by norm_num) [evAt 1, evAt 2, evAt 3]
    (by decide),
   claim9_no_upper_clamp_amended.2.1 pebbleFour 1 3 (by norm_num) [evAt 1, evAt 2, evAt 3]
    (by decide),
   claim9_no_upper_clamp_amended.2.2.1 sqliteFour 1 0 (by norm_num),
   claim9_no_upper_clamp_amended.2.2.2 3⟩

/-- Counterexample to C9 as stated: there is no upper clamp `C` on the size
of a single in-memory batch — for every `C`, a SQLite store with `C+1` events
streamed with `batch_size = C+1` accumulates all `C+1` events in one batch. -/
theorem claim9_counterexample_unbounded_batch :
    ¬ ∃ C : Nat, ∀ (s : SQLiteStore) (batchSize : Int) (b : List StoredEvent),
        b ∈ s.LoadStream 1 batchSize → b.length ≤ C := by
  rintro ⟨C, hC⟩
  have hmem : assignPositions 0 (List.replicate (C + 1) (evAt 0)) ∈
      SQLiteStore.LoadStream
        ⟨assignPositions 0 (List.replicate (C + 1) (evAt 0)), ((C + 1 : Nat) : Int), []⟩ 1
        ((C + 1 : Nat) : Int) := by
    rw [sqliteStream_one_page (C + 1) (by omega)]
    exact List.mem_singleton.mpr rfl
  have := hC _ _ _ hmem
  rw [assignPositions_length, List.length_replicate] at this
  omega

/-! ### Tenant registry (claims C4, C5) -/

theorem tenantPath_inj (backend : Backend) (dataDir n1 n2 : String)
    (h : tenantPath backend dataDir n1 = tenantPath backend dataDir n2) : n1 = n2 := by
  cases backend with
  | sqlite =>
    apply String.ext
    have hd := congrArg String.data h
    simp only [tenantPath, String.data_append, List.append_assoc] at hd
    have hd2 := List.append_cancel_left hd
    have hd3 := List.append_cancel_left hd2
    exact List.append_cancel_right hd3
  | pebble =>
    apply String.ext
    have hd := congrArg String.data h
    simp only [tenantPath, String.data_append, List.append_assoc] at hd
    have hd2 := List.append_cancel_left hd
    exact List.append_cancel_left hd2

theorem buildTenants_abort (backend : Backend) (dataDir : String) :
    ∀ (vs : List TenantConfig) (acc : List (String × String)) (opened : List String)
      (bad : TenantConfig) (rest : List TenantConfig),
      (∀ t ∈ vs, validEntry t = true) →
      (∀ t ∈ vs, assocFind t.APIKey acc = none) →
      ((vs.map fun t => t.APIKey).Nodup) →
      (validEntry bad = false ∨ (assocFind bad.APIKey acc).isSome = true ∨
        bad.APIKey ∈ vs.map fun t => t.APIKey) →
      ∃ msg, buildTenants backend dataDir (vs ++ bad :: rest) acc opened =
        (opened ++ vs.map fun t => tenantPath backend dataDir t.Name, Except.error msg) := by
  intro vs
  induction vs with
  | nil =>
    intro acc opened bad rest _ _ _ hbad
    simp only [List.nil_append, List.map_nil, List.append_nil]
    unfold buildTenants
    by_cases h1 : bad.Name = ""
    · rw [if_pos h1]; exact ⟨_, rfl⟩
    rw [if_neg h1]
    by_cases h2 : (!validTenantName bad.Name) = true
    · rw [if_pos h2]; exact ⟨_, rfl⟩
    rw [if_neg h2]
    by_cases h3 : 100 < bad.Name.length
    · rw [if_pos h3]; exact ⟨_, rfl⟩
    rw [if_neg h3]
    by_cases h4 : bad.APIKey = ""
    · rw [if_pos h4]; exact ⟨_, rfl⟩
    rw [if_neg h4]
    have hve : validEntry bad = true := by
      unfold validEntry
      have h2v : validTenantName bad.Name = true := by simpa using h2
      simp [h1, h2v, h3, h4]
    rcases hbad with hinv | hdup | hmem
    · rw [hve] at hinv
      exact absurd hinv (by simp)
    · rw [if_pos hdup]
      exact ⟨_, rfl⟩
    · cases hmem
  | cons t vs' ih =>
    intro acc opened bad rest hval hfind hnd hbad
    have hvt := hval t (List.mem_cons_self t vs')
    unfold validEntry at hvt
    simp only [Bool.and_eq_true, Bool.not_eq_true', decide_eq_false_iff_not,
      decide_eq_true_eq] at hvt
    obtain ⟨⟨⟨ht1, ht2⟩, ht3⟩, ht4⟩ := hvt
    have ht5 : (assocFind t.APIKey acc).isSome = false := by
      rw [hfind t (List.mem_cons_self t vs')]
      rfl
    rw [List.cons_append]
    unfold buildTenants
    rw [if_neg ht1, if_neg (by rw [ht2]; simp), if_neg (by omega), if_neg ht4,
      if_neg (by rw [ht5]; simp)]
    rw [List.map_cons] at hnd
    have hndc := List.nodup_cons.mp hnd
    have hbad2 : validEntry bad = false ∨
        (assocFind bad.APIKey (acc ++ [(t.APIKey, t.Name)])).isSome = true ∨
        bad.APIKey ∈ vs'.map fun tc => tc.APIKey := by
      rcases hbad with hinv | hdup | hmem
      · exact Or.inl hinv
      · refine Or.inr (Or.inl ?_)
        rw [assocFind_append]
        rcases hfa : assocFind bad.APIKey acc with _ | v
        · rw [hfa] at hdup
          simp at hdup
        · rfl
      · rw [List.map_cons] at hmem
        rcases List.mem_cons.mp hmem with heq | hmem2
        · refine Or.inr (Or.inl ?_)
          rw [assocFind_append]
          rcases hfa : assocFind bad.APIKey acc with _ | v
          · show (assocFind bad.APIKey [(t.APIKey, t.Name)]).isSome = true
            unfold assocFind
            rw [if_pos heq]
            rfl
          · rfl
        · exact Or.inr (Or.inr hmem2)
    obtain ⟨msg, hres⟩ := ih (acc ++ [(t.APIKey, t.Name)])
      (opened ++ [tenantPath backend dataDir t.Name]) bad rest
      (fun x hx => hval x (List.mem_cons_of_mem t hx))
      (fun x hx => by
        rw [assocFind_append, hfind x (List.mem_cons_of_mem t hx)]
        show assocFind x.APIKey [(t.APIKey, t.Name)] = none
        unfold assocFind
        rw [if_neg (by
          intro hcontra
          exact hndc.1 (hcontra ▸ List.mem_map_of_mem (fun tc => tc.APIKey) hx))]
        rfl)
      hndc.2
      hbad2
    refine ⟨msg, ?_⟩
    rw [hres]
    simp [List.append_assoc]

/-- C4 (amended): the registry's per-tenant path construction gives tenants
with distinct names distinct storage paths (the name-to-path map is
injective), but the registry does not validate name uniqueness: two accepted
tenants may share a name — and then share a storage path, as the
counterexample shows. -/
theorem claim4_distinct_paths_amended :
    ∀ (config : TenantsConfig) (reg : List (String × String)),
      (NewTenantManager config).2 = Except.ok reg →
      ∀ t1 ∈ config.Tenants, ∀ t2 ∈ config.Tenants, t1.Name ≠ t2.Name →
        tenantPath config.StoreBackend config.DataDir t1.Name ≠
          tenantPath config.StoreBackend config.DataDir t2.Name := by
  intro config reg _ t1 _ t2 _ hne hcontra
  exact hne (tenantPath_inj _ _ _ _ hcontra)

/-- Witness for the amended C4: an accepted two-tenant config with distinct
names yields distinct paths. -/
theorem claim4_distinct_paths_amended_witness :
    tenantPath Backend.sqlite "data" "a" ≠ tenantPath Backend.sqlite "data" "b" :=
  claim4_distinct_paths_amended ⟨[⟨"a", "k1"⟩, ⟨"b", "k2"⟩], "data", Backend.sqlite⟩
    [("k1", "a"), ("k2", "b")] rfl ⟨"a", "k1"⟩ (by decide) ⟨"b", "k2"⟩ (by decide) (by decide)

/-- Counterexample to C4 as stated: the registry accepts two tenants that
share the name "a" (only api-key uniqueness is checked), constructs both
stores, and their storage paths coincide. -/
theorem claim4_counterexample_shared_path :
    (NewTenantManager ⟨[⟨"a", "k1"⟩, ⟨"a", "k2"⟩], "data", Backend.sqlite⟩).2 =
      Except.ok [("k1", "a"), ("k2", "a")] ∧
    (NewTenantManager ⟨[⟨"a", "k1"⟩, ⟨"a", "k2"⟩], "data", Backend.sqlite⟩).1 =
      ["data/a.db", "data/a.db"] ∧
    ¬ ((NewTenantManager ⟨[⟨"a", "k1"⟩, ⟨"a", "k2"⟩], "data",
      Backend.sqlite⟩).1.Pairwise (fun p q => p ≠ q)) :=
  ⟨rfl, rfl, by decide⟩

/-- C5 (amended): a tenant list whose first invalid entry has an empty name,
a bad name, an oversized name, an empty api key, or a duplicated api key
makes registry construction fail with a configuration error — but
construction performs no cleanup: the stores already opened for the earlier
(valid) tenants in the list are left open, one per earlier tenant. -/
theorem claim5_validation_aborts_but_leaks_amended :
    ∀ (backend : Backend) (dataDir : String) (vs : List TenantConfig) (bad : TenantConfig)
      (rest : List TenantConfig),
      (∀ t ∈ vs, validEntry t = true) →
      ((vs.map fun t => t.APIKey).Nodup) →
      (validEntry bad = false ∨ bad.APIKey ∈ vs.map fun t => t.APIKey) →
      ∃ msg, NewTenantManager ⟨vs ++ bad :: rest, dataDir, backend⟩ =
        (vs.map fun t => tenantPath backend dataDir t.Name, Except.error msg) := by
  intro backend dataDir vs bad rest hval hnd hbad
  have h := buildTenants_abort backend dataDir vs [] [] bad rest hval
    (fun t _ => rfl) hnd ?_
  · obtain ⟨msg, hres⟩ := h
    refine ⟨msg, ?_⟩
    show buildTenants backend dataDir (vs ++ bad :: rest) [] [] = _
    rw [hres]
    rw [List.nil_append]
  · rcases hbad with h1 | h2
    · exact Or.inl h1
    · exact Or.inr (Or.inr h2)

/-- Witness for the amended C5: one valid tenant followed by an empty-named
one — construction errors and the valid tenant's store path was opened and
never closed. -/
theorem claim5_validation_aborts_but_leaks_amended_witness :
    ∃ msg, NewTenantManager ⟨[⟨"a", "k1"⟩] ++ ⟨"", "k2"⟩ :: [], "data", Backend.sqlite⟩ =
      (["data/a.db"], Except.error msg) :=
  claim5_validation_aborts_but_leaks_amended Backend.sqlite "data" [⟨"a", "k1"⟩] ⟨"", "k2"⟩ []
    (by decide) (by decide) (Or.inl (by decide))

/-- Counterexample to C5 as stated: with a valid tenant before the invalid
one, construction fails but the list of opened-and-never-closed stores is
nonempty — partial state survives. -/
theorem claim5_counterexample_store_left_open :
    (NewTenantManager ⟨[⟨"a", "k1"⟩, ⟨"", "k2"⟩], "data", Backend.sqlite⟩).1 = ["data/a.db"] ∧
    (NewTenantManager ⟨[⟨"a", "k1"⟩, ⟨"", "k2"⟩], "data", Backend.sqlite⟩).2 =
      Except.error "tenant name cannot be empty" ∧
    (NewTenantManager ⟨[⟨"a", "k1"⟩, ⟨"", "k2"⟩], "data", Backend.sqlite⟩).1 ≠ [] :=
  ⟨rfl, rfl, by decide⟩

/-- C10: in both backends a successful `Save` communicates the assigned
position by writing it into the caller's event (embedded as the post-call
value of the argument), and a successful `SaveBatch` does so for every event
of the caller's slice in list order (`assignPositions`), with the `Type`,
`Data` and `Timestamp` fields untouched; the positions form the contiguous
block `p+1..p+k`. Neither operation returns a copy: the Go signatures return
only `error`. -/
theorem claim10_in_place_position_assignment :
    (∀ (valid : String → Bool) (s : PebbleStore) (e : StoredEvent),
      valid e.Data = true → 0 ≤ s.position → s.position + 1 < 2 ^ 63 →
      (PebbleStore.Save valid s e).2.1 = { e with Position := s.position + 1 } ∧
      (PebbleStore.Save valid s e).2.2 = Except.ok ()) ∧
    (∀ (valid : String → Bool) (s : PebbleStore) (es : List StoredEvent),
      0 ≤ s.position → s.position + es.length < 2 ^ 63 → (∀ e ∈ es, valid e.Data = true) →
      (PebbleStore.SaveBatch valid s es).2.1 = assignPositions s.position es ∧
      (PebbleStore.SaveBatch valid s es).2.2 = Except.ok ()) ∧
    (∀ (insOk : StoredEvent → Bool) (s : SQLiteStore) (e : StoredEvent),
      insOk e = true →
      (SQLiteStore.Save insOk s e).2.1 = { e with Position := s.seq + 1 } ∧
      (SQLiteStore.Save insOk s e).2.2 = Except.ok ()) ∧
    (∀ (insOk : StoredEvent → Bool) (s : SQLiteStore) (es : List StoredEvent),
      (∀ e ∈ es, insOk e = true) →
      (SQLiteStore.SaveBatch insOk s es).2.1 = assignPositions s.seq es ∧
      (SQLiteStore.SaveBatch insOk s es).2.2 = Except.ok ()) ∧
    (∀ (p : Int) (es : List StoredEvent),
      (assignPositions p es).map (fun e => (e.EventType, e.Data, e.Timestamp)) =
        es.map (fun e => (e.EventType, e.Data, e.Timestamp)) ∧
      (assignPositions p es).map (fun e => e.Position) = posSeq p es.length) := by
  refine ⟨?_, ?_, ?_, ?_, ?_⟩
  · intro valid s e hv h0 h1
    have hw : wrap64 (s.position + 1) = s.position + 1 := wrap64_eq_self _ (by omega) (by omega)
    unfold PebbleStore.Save
    simp [hw, hv]
  · intro valid s es h0 h1 hv
    rw [pebbleSaveBatch_ok_state valid s es h0 h1 hv]
    exact ⟨rfl, rfl⟩
  · intro insOk s e hv
    unfold SQLiteStore.Save
    simp [hv]
  · intro insOk s es hv
    rw [sqliteSaveBatch_ok_state insOk s es hv]
    exact ⟨rfl, rfl⟩
  · intro p es
    exact ⟨assignPositions_map_fields es p, assignPositions_map_position es p⟩

/-- Witness for C10 at concrete inputs: single saves and a 2-event batch,
checking the mutated events carry the assigned positions with other fields
unchanged. -/
theorem claim10_in_place_position_assignment_witness :
    (PebbleStore.Save okFn pebbleInit (evAt 0)).2.1 = { evAt 0 with Position := 1 } ∧
    (PebbleStore.SaveBatch okFn pebbleFour [evAt 0, evAt 0]).2.1 =
      [{ evAt 0 with Position := 5 }, { evAt 0 with Position := 6 }] ∧
    (SQLiteStore.Save (fun e => okFn e.Data) sqliteInit (evAt 0)).2.1 =
      { evAt 0 with Position := 1 } ∧
    (SQLiteStore.SaveBatch (fun e => okFn e.Data) sqliteFour [evAt 0, evAt 0]).2.1 =
      [{ evAt 0 with Position := 5 }, { evAt 0 with Position := 6 }] := by
  have h1 := (claim10_in_place_position_assignment.1 okFn pebbleInit (evAt 0)
    (by decide) (by decide) (by decide)).1
  have h2 := (claim10_in_place_position_assignment.2.1 okFn pebbleFour [evAt 0, evAt 0]
    (by decide) (by decide) (by decide)).1
  have h3 := (claim10_in_place_position_assignment.2.2.1 (fun e => okFn e.Data) sqliteInit
    (evAt 0) (by decide)).1
  have h4 := (claim10_in_place_position_assignment.2.2.2.1 (fun e => okFn e.Data) sqliteFour
    [evAt 0, evAt 0] (by decide)).1
  exact ⟨h1, h2, h3, h4⟩

/-- C3: the claim says both backends honor `Load(from, -1)` identically as
"all events up to the cap". The code disagrees: the Pebble backend builds the
iterator over `[eventKey(from), eventKey(0))`, an empty key range, so
`Load(1, -1)` returns no events on any Pebble store — while the SQLite
backend returns the first 10000 events from `from`. On the concrete 4-event
scenario the Pebble store yields `[]` where the claim (and the README's
"load all events" endpoint, which passes `to = -1`) requires all 4 events. -/
theorem claim3_open_ended_sentinel_divergence :
    (∀ (s : PebbleStore) (fromPos : Int), s.Load fromPos (-1) = []) ∧
    pebbleFour.Load 1 (-1) = [] ∧
    sqliteFour.Load 1 (-1) = [evAt 1, evAt 2, evAt 3, evAt 4] := by
  refine ⟨?_, ?_, ?_⟩
  · intro s fromPos
    unfold PebbleStore.Load
    have h0 : pebbleKeyOrd ((-1) + 1) = 0 := rfl
    have h : ∀ kv ∈ s.events,
        ¬((decide (pebbleKeyOrd fromPos ≤ pebbleKeyOrd kv.1) &&
           decide (pebbleKeyOrd kv.1 < pebbleKeyOrd ((-1) + 1))) = true) := by
      intro kv _
      rw [Bool.and_eq_true, decide_eq_true_eq, decide_eq_true_eq]
      rintro ⟨-, h2⟩
      rw [h0] at h2
      exact absurd h2 (Nat.not_lt_zero _)
    rw [List.filter_eq_nil_iff.mpr h]
    rfl
  · rfl
  · rfl

/-! ### Claim C8: subscription checkpoint round-trip -/

/-- C8: on both backends, `SaveSubscriptionPosition(id, v)` followed by
`LoadSubscriptionPosition(id)` returns `v` (for the Pebble backend `v` ranges
over int64, whose big-endian `uint64` encoding round-trips), and loading an
id that was never saved returns 0 with no error. -/
theorem claim8_checkpoint_roundtrip :
    (∀ (s : PebbleStore) (id : String) (v : Int), -2 ^ 63 ≤ v → v < 2 ^ 63 →
      (s.SaveSubscriptionPosition id v).LoadSubscriptionPosition id = v) ∧
    (∀ (s : PebbleStore) (id : String), assocFind id s.subs = none →
      s.LoadSubscriptionPosition id = 0) ∧
    (∀ (s : SQLiteStore) (id : String) (v : Int),
      (s.SaveSubscriptionPosition id v).LoadSubscriptionPosition id = v) ∧
    (∀ (s : SQLiteStore) (id : String), assocFind id s.subs = none →
      s.LoadSubscriptionPosition id = 0) := by
  refine ⟨?_, ?_, ?_, ?_⟩
  · intro s id v h1 h2
    unfold PebbleStore.SaveSubscriptionPosition PebbleStore.LoadSubscriptionPosition
    rw [assocFind_assocSet_self]
    exact int64_roundtrip v h1 h2
  · intro s id h
    unfold PebbleStore.LoadSubscriptionPosition
    rw [h]
  · intro s id v
    unfold SQLiteStore.SaveSubscriptionPosition SQLiteStore.LoadSubscriptionPosition
    rw [assocFind_assocSet_self]
  · intro s id h
    unfold SQLiteStore.LoadSubscriptionPosition
    rw [h]

/-- Witness for C8 at concrete inputs, including a negative position (the
checkpoint need not reference an existing event). -/
theorem claim8_checkpoint_roundtrip_witness :
    (pebbleInit.SaveSubscriptionPosition "sub-a" (-5)).LoadSubscriptionPosition "sub-a" = -5 ∧
    pebbleInit.LoadSubscriptionPosition "unknown" = 0 ∧
    (sqliteInit.SaveSubscriptionPosition "sub-a" 42).LoadSubscriptionPosition "sub-a" = 42 ∧
    sqliteInit.LoadSubscriptionPosition "unknown" = 0 :=
  ⟨claim8_checkpoint_roundtrip.1 pebbleInit "sub-a" (-5) (by norm_num) (by norm_num),
   claim8_checkpoint_roundtrip.2.1 pebbleInit "unknown" rfl,
   claim8_checkpoint_roundtrip.2.2.1 sqliteInit "sub-a" 42,
   claim8_checkpoint_roundtrip.2.2.2 sqliteInit "unknown" rfl⟩
